import Mathlib

/-!
# Sorbet: parser error translation, fixture harness, resolver

A shallow embedding of three parts of the repository:

* `parser/Parser.cc`: `ErrorToError::translatePos`, `ErrorToError::run`, `Parser::run`;
* `test/test_corpus.cc`: the error check at the end of `PerPhaseTest`;
* `resolver/resolver.h`: only the declarations of the resolver passes are in the
  sources, so the ancestor linearizer, the mixin class-method wirer and the constant
  resolution engine are modelled from the specification.

Definitions come first, theorems after them.
-/

namespace sorbet

/-! ## parser/Parser.cc -/

namespace parser

/-- The cast `(u4)(x)`: reduction to 32 unsigned bits. -/
def u4 (x : Nat) : Nat := x % 2 ^ 32

/-- Levels `ruby_parser::dlevel` of a diagnostic. -/
inductive dlevel where
  | NOTE
  | WARNING
  | ERROR
  | FATAL
  deriving DecidableEq, Repr

/-- Classes `ruby_parser::dclass` of a diagnostic. The enumeration is declared outside
these sources; `Parser.cc` names one member, the others are kept by their number. -/
inductive dclass where
  | MethodWithoutSelector
  | other (code : Nat)
  deriving DecidableEq, Repr

/-- Source range of a diagnostic, two `size_t` offsets. -/
structure range where
  beginPos : Nat
  endPos : Nat
  deriving DecidableEq, Repr

/-- One entry of `ruby_parser::diagnostics_t`. -/
structure diagnostic where
  level : dlevel
  error_class : dclass
  data : String
  location : range
  deriving DecidableEq, Repr

/-- Error classes `core::errors::Parser` used by `ErrorToError::run`. -/
inductive ErrorClass where
  | MethodWithoutSelector
  | ParserError
  deriving DecidableEq, Repr

/-- A file reference `core::FileRef`. -/
abbrev FileRef := Nat

/-- A location `core::Loc(file, begin, end)`. -/
structure Loc where
  file : FileRef
  beginPos : Nat
  endPos : Nat
  deriving DecidableEq, Repr

/-- The part of `core::File` that `Parser.cc` reads and writes. -/
structure File where
  source : String
  hasParseErrors : Bool
  deriving DecidableEq, Repr

/-- One call of `gs.beginError(loc, what)`; `header` is set when the returned builder
is live, that is when the branch of `if (auto e = ...)` is taken. -/
structure BegunError where
  loc : Loc
  what : ErrorClass
  header : Option String
  deriving DecidableEq, Repr

/-- The part of `core::GlobalState` that `Parser.cc` touches: the files and the
sequence of errors begun so far. -/
structure GlobalState where
  files : FileRef → File
  begun : List BegunError

/-- What `Parser.cc` uses and these sources do not define: the table `dclassStrings`,
`fmt::format` on one argument, and whether `beginError` hands back a live builder. -/
structure Externals where
  dclassStrings : dclass → String
  format : String → String → String
  live : GlobalState → Loc → ErrorClass → Bool

/-- The assignment `file.data(gs).hasParseErrors = true`. -/
def setHasParseErrors (gs : GlobalState) (file : FileRef) : GlobalState :=
  { gs with files := fun f => if f = file then { gs.files f with hasParseErrors := true } else gs.files f }

/-- The call `gs.beginError(loc, what)` followed by `e.setHeader(...)` on a live builder. -/
def beginError (ext : Externals) (gs : GlobalState) (loc : Loc) (what : ErrorClass)
    (header : String) : GlobalState :=
  { gs with begun := gs.begun ++ [{ loc := loc, what := what,
                                    header := if ext.live gs loc what then some header else none }] }

namespace ErrorToError

/-- The function `ErrorToError::translatePos(size_t pos, u4 maxOff)`. -/
def translatePos (pos : Nat) (maxOff : Nat) : Nat :=
  if pos = 0 then u4 pos else min (u4 pos) maxOff

/-- The class of the error begun for a diagnostic. -/
def sorbetErrorClass (diag : diagnostic) : ErrorClass :=
  if diag.error_class = dclass.MethodWithoutSelector then ErrorClass.MethodWithoutSelector
  else ErrorClass.ParserError

/-- The location built for a diagnostic: `maxOff - 1` is computed on 32 unsigned bits. -/
def diagLoc (file : FileRef) (maxOff : Nat) (diag : diagnostic) : Loc :=
  { file := file
    beginPos := translatePos diag.location.beginPos (u4 (maxOff + 2 ^ 32 - 1))
    endPos := translatePos diag.location.endPos maxOff }

/-- The loop body of `ErrorToError::run` for one diagnostic. -/
def step (ext : Externals) (file : FileRef) (maxOff : Nat) (gs : GlobalState)
    (diag : diagnostic) : GlobalState :=
  match diag.level with
  | dlevel.NOTE => gs
  | dlevel.WARNING => gs
  | dlevel.ERROR =>
    beginError ext gs (diagLoc file maxOff diag) (sorbetErrorClass diag)
      (ext.format (ext.dclassStrings diag.error_class) diag.data)
  | dlevel.FATAL =>
    beginError ext gs (diagLoc file maxOff diag) (sorbetErrorClass diag)
      (ext.format (ext.dclassStrings diag.error_class) diag.data)

/-- The function `ErrorToError::run(gs, file, diagnostics)`. -/
def run (ext : Externals) (gs : GlobalState) (file : FileRef)
    (diagnostics : List diagnostic) : GlobalState :=
  if diagnostics.isEmpty then gs
  else
    let maxOff := u4 (gs.files file).source.utf8ByteSize
    let gs1 := setHasParseErrors gs file
    diagnostics.foldl (step ext file maxOff) gs1

end ErrorToError

/-- A parse tree node `parser::Node`; `Parser.cc` builds only `Begin`. -/
inductive Node where
  | Begin (loc : Loc) (stmts : List Node)
  | Other (loc : Loc) (kind : String) (children : List Node)

/-- What `builder.build(&driver)` leaves behind: the tree pointer (possibly null), the
diagnostics of the driver, and the global state after name entry. -/
structure BuildOutcome where
  ast : Option Node
  diagnostics : List diagnostic
  gs : GlobalState

/-- The builder and the driver are outside these sources; they are taken as a function of
the state, the file and the initial locals. -/
abbrev Builder := GlobalState → FileRef → List String → BuildOutcome

namespace Parser

/-- The function `Parser::run(gs, file, initialLocals)`; the `unique_ptr<Node>` it returns
is an `Option Node`, `none` standing for the null pointer. -/
def run (ext : Externals) (build : Builder) (gs : GlobalState) (file : FileRef)
    (initialLocals : List String) : Option Node × GlobalState :=
  let out := build gs file initialLocals
  let gs1 := ErrorToError.run ext out.gs file out.diagnostics
  match out.ast with
  | none => (some (Node.Begin { file := file, beginPos := 0, endPos := 0 } []), gs1)
  | some ast => (some ast, gs1)

end Parser

/-- The externals used in the examples: every builder is live. -/
def demoExternals : Externals :=
  { dclassStrings := fun _ => "parse error", format := fun f d => f ++ d, live := fun _ _ _ => true }

/-- A state with one file of three bytes and no error. -/
def demoState : GlobalState :=
  { files := fun _ => { source := "abc", hasParseErrors := false }, begun := [] }

end parser

/-! ## test/test_corpus.cc: the error check of `PerPhaseTest` -/

namespace test

/-- A line and column pair, one end of `error->loc.position(gs)`. -/
structure Detail where
  line : Nat
  column : Nat
  deriving DecidableEq, Repr

/-- A reported error as the harness reads it: `loc` is `none` when `loc.is_none()`,
otherwise the pair returned by `loc.position(gs)`; `formatted` is the message. -/
structure BasicError where
  loc : Option (Detail × Detail)
  formatted : String
  deriving DecidableEq, Repr

/-- The failures that the error check adds with `ADD_FAILURE()`. -/
inductive Failure where
  | unknownLocNotAnnotated (line : Nat)
  | stringMismatch (line : Nat) (expected : String) (formatted : String)
  | emptyExpectation (line : Nat) (formatted : String)
  | unexpectedError (error : BasicError)
  | expectedDidntHappen (line : Nat)
  deriving DecidableEq, Repr

/-- The loop `while (getline(ss, line, NL))`: the lines of the source, split at line
feeds; `cur` holds the characters of the line being read, last one first. A last line
without characters is not produced, since `getline` fails when it extracts nothing. -/
def getlines : List Char → List Char → List (List Char)
  | cur, [] => if cur.isEmpty then [] else [cur.reverse]
  | cur, c :: rest =>
    if c = Char.ofNat 10 then cur.reverse :: getlines [] rest
    else getlines (c :: cur) rest

/-- The literal head of `errorRegex`. -/
def errorMarker : List Char := "# error:".toList

/-- What follows the literal head once it is matched: the optional blank is taken when
there is one, and the group `(.*)` runs up to the first line terminator. -/
def captureGroup (rest : List Char) : List Char :=
  let rest1 := match rest with
    | c :: t => if c = Char.ofNat 32 then t else c :: t
    | [] => []
  rest1.takeWhile (fun c => c ≠ Char.ofNat 10 ∧ c ≠ Char.ofNat 13)

/-- The call `regex_search(line, matches, errorRegex)`, giving `matches[1]` at the
leftmost match, or `none` when the line has no match. -/
def errorRegex : List Char → Option (List Char)
  | [] => none
  | c :: rest =>
    if errorMarker.isPrefixOf (c :: rest) then some (captureGroup ((c :: rest).drop errorMarker.length))
    else errorRegex rest

/-- The map `expectedErrors` built from the lines numbered from `linenum` on, as the list
of its entries in increasing line order. -/
def collectExpected : Nat → List (List Char) → List (Nat × String)
  | _, [] => []
  | linenum, line :: rest =>
    match errorRegex line with
    | some text => (linenum, String.mk text) :: collectExpected (linenum + 1) rest
    | none => collectExpected (linenum + 1) rest

/-- The map `expectedErrors` of a source text. -/
def expectedErrors (src : String) : List (Nat × String) :=
  collectExpected 1 (getlines [] src.toList)

/-- The call `expectedErrors.find(line)`. -/
def findExpected (expected : List (Nat × String)) (line : Nat) : Option String :=
  (expected.find? (fun e => e.1 = line)).map Prod.snd

/-- The test `hay.find(needle) != string::npos` on character lists. -/
def findIn : List Char → List Char → Bool
  | needle, [] => needle.isEmpty
  | needle, c :: rest => needle.isPrefixOf (c :: rest) || findIn needle rest

/-- The test `formatted.find(expected) != string::npos`. -/
def containsText (formatted expected : String) : Bool :=
  findIn expected.toList formatted.toList

/-- The variables the loop over the errors updates. -/
structure CheckState where
  failures : List Failure
  seenErrorLines : List Nat
  unknownLocErrorLine : Nat
  deriving DecidableEq, Repr

/-- The variables of the loop over the lines of one located error. -/
structure LineScan where
  failures : List Failure
  seenErrorLines : List Nat
  found : Bool
  deriving DecidableEq, Repr

/-- The body of `for (int i = pos.first.line; i <= pos.second.line; i++)`. -/
def scanLine (expected : List (Nat × String)) (error : BasicError) (s : LineScan) (i : Nat) :
    LineScan :=
  match findExpected expected i with
  | none => s
  | some text =>
    if text.isEmpty then
      { s with failures := s.failures ++ [Failure.emptyExpectation i error.formatted] }
    else if !containsText error.formatted text then
      { s with failures := s.failures ++ [Failure.stringMismatch i text error.formatted] }
    else
      { s with found := true, seenErrorLines := s.seenErrorLines.insert i }

/-- The lines `pos.first.line, ..., pos.second.line`, none when the first is beyond the
second. -/
def lineRange (pos : Detail × Detail) : List Nat :=
  List.range' pos.1.line (pos.2.line + 1 - pos.1.line)

/-- The handling of an error with a known location. -/
def checkLocated (expected : List (Nat × String)) (st : CheckState) (error : BasicError)
    (pos : Detail × Detail) : CheckState :=
  let s := (lineRange pos).foldl (scanLine expected error)
    { failures := st.failures, seenErrorLines := st.seenErrorLines, found := false }
  { st with
    failures := if s.found then s.failures else s.failures ++ [Failure.unexpectedError error]
    seenErrorLines := s.seenErrorLines }

/-- The handling of an error without location. -/
def checkUnknownLoc (expected : List (Nat × String)) (st : CheckState) (error : BasicError) :
    CheckState :=
  let line := st.unknownLocErrorLine
  let st1 := { st with unknownLocErrorLine := st.unknownLocErrorLine + 1 }
  match findExpected expected line with
  | none => { st1 with failures := st1.failures ++ [Failure.unknownLocNotAnnotated line] }
  | some text =>
    if !containsText error.formatted text then
      { st1 with failures := st1.failures ++ [Failure.stringMismatch line text error.formatted] }
    else
      { st1 with seenErrorLines := st1.seenErrorLines.insert line }

/-- The body of `for (int i = 0; i < errors.size(); i++)`. -/
def checkError (expected : List (Nat × String)) (st : CheckState) (error : BasicError) :
    CheckState :=
  match error.loc with
  | none => checkUnknownLoc expected st error
  | some pos => checkLocated expected st error pos

/-- The state after the loop over all the errors. -/
def afterErrors (expected : List (Nat × String)) (errors : List BasicError) : CheckState :=
  errors.foldl (checkError expected)
    { failures := [], seenErrorLines := [], unknownLocErrorLine := 1 }

/-- The last loop: one failure for each expected line that was not seen. -/
def missedExpected (expected : List (Nat × String)) (seen : List Nat) : List Failure :=
  (expected.filter (fun e => !seen.contains e.1)).map (fun e => Failure.expectedDidntHappen e.1)

/-- The block `// Check warnings and errors` of `PerPhaseTest`: the failures it records
for a source text and the errors taken from `gs.errors.getAndEmptyErrors()`. -/
def PerPhaseTest (src : String) (errors : List BasicError) : List Failure :=
  if errors.length > 0 then
    let expected := expectedErrors src
    let st := afterErrors expected errors
    st.failures ++ missedExpected expected st.seenErrorLines
  else []

/-- Line `i` carries an expected text that is not empty and occurs in the message of the
error: the condition under which `scanLine` sets `found`. -/
def MatchedAt (expected : List (Nat × String)) (error : BasicError) (i : Nat) : Prop :=
  ∃ text, findExpected expected i = some text ∧ text ≠ "" ∧
    text.toList <:+: error.formatted.toList

/-- Line `line` of the source, lines being numbered from 1, carries an expected error with
the text `text`: `errorRegex` matches on that line and captures `text`. -/
def AnnotatedWith (src : String) (line : Nat) (text : String) : Prop :=
  1 ≤ line ∧ ∃ l, (getlines [] src.toList)[line - 1]? = some l ∧ errorRegex l = some text.toList

end test

/-! ## resolver/resolver.h: the resolver passes, modelled from the specification -/

namespace resolver

/-- A symbol identifier, the index of the symbol in the symbol table. -/
abbrev SymbolRef := Nat

/-- Modelled from the spec: the three kinds of declared mixin of the data model. -/
inductive MixinKind where
  | Include
  | Extend
  | Prepend
  deriving DecidableEq, Repr

/-- Modelled from the spec: a declared mixin reference of the data model; its place in
the list of the symbol is its declaration order. -/
structure MixinRef where
  kind : MixinKind
  target : SymbolRef
  deriving DecidableEq, Repr

/-- Modelled from the spec: the attributes of a class or module `Symbol` of the data model
that linearization and mixin wiring read:
the optional superclass, the declared mixins in declaration order, and the marker that
names the companion module contributing class methods. -/
structure Symbol where
  superclass : Option SymbolRef
  mixins : List MixinRef
  mixesInClassMethods : Option SymbolRef
  deriving DecidableEq, Repr

/-- The symbol table as the arena of its class and module symbols. -/
abbrev SymbolTable := List Symbol

/-- Modelled from the spec: the `Resolution State` of the data model. -/
inductive ResolutionState where
  | Unresolved
  | InProgress
  | Resolved
  | Error
  deriving DecidableEq, Repr

/-- Modelled from the spec: the fields the linearizer fills, per symbol its resolution
state and its ancestor list, and the symbols for which a cyclic hierarchy was reported. -/
structure LinState where
  state : SymbolRef → ResolutionState
  ancestors : SymbolRef → List SymbolRef
  errors : List SymbolRef

/-- The state before linearization: nothing resolved, no ancestor list, no error. -/
def LinState.init : LinState :=
  { state := fun _ => ResolutionState.Unresolved, ancestors := fun _ => [], errors := [] }

/-- The prepended modules of a symbol, in declaration order. -/
def prepends (sym : Symbol) : List SymbolRef :=
  (sym.mixins.filter (fun m => m.kind = MixinKind.Prepend)).map (fun m => m.target)

/-- The included modules of a symbol, in declaration order. -/
def includes (sym : Symbol) : List SymbolRef :=
  (sym.mixins.filter (fun m => m.kind = MixinKind.Include)).map (fun m => m.target)

/-- The symbols whose ancestor lists are composed into the list of `c`, in the order of
the composition: prepends latest first, includes latest first, superclass. -/
def parents (tbl : SymbolTable) (c : SymbolRef) : List SymbolRef :=
  match tbl[c]? with
  | none => []
  | some sym => (prepends sym).reverse ++ ((includes sym).reverse ++ sym.superclass.toList)

/-- Modelled from the spec: `dedup_keep_first` of the Ancestor Linearizer, which keeps the
first occurrence of each ancestor and the relative order of what it keeps (the body of
`Resolver::computeLinearization` is not among the sources). -/
def dedupKeepFirst : List SymbolRef → List SymbolRef
  | [] => []
  | x :: xs => x :: (dedupKeepFirst xs).filter (fun y => y ≠ x)

/-- Modelled from the spec: the `InProgress` sentinel, `c` is mid-computation. -/
def markInProgress (st : LinState) (c : SymbolRef) : LinState :=
  { st with state := fun x => if x = c then ResolutionState.InProgress else st.state x }

/-- Modelled from the spec: cycle detection, an error is reported for `c` and the
degenerate list `[c]` is substituted. -/
def reportCycle (st : LinState) (c : SymbolRef) : LinState :=
  { state := fun x => if x = c then ResolutionState.Error else st.state x
    ancestors := fun x => if x = c then [c] else st.ancestors x
    errors := st.errors ++ [c] }

/-- Modelled from the spec: the memo entry of a finished computation. -/
def store (st : LinState) (c : SymbolRef) (l : List SymbolRef) : LinState :=
  { st with
    state := fun x => if x = c then ResolutionState.Resolved else st.state x
    ancestors := fun x => if x = c then l else st.ancestors x }

/-- Modelled from the spec: the end of the computation of `c`. The composed list is stored
unless the cycle detection has replaced the sentinel in the meantime, `Error` being a
terminal state. -/
def finish (st : LinState) (c : SymbolRef) (l : List SymbolRef) : List SymbolRef × LinState :=
  match st.state c with
  | ResolutionState.InProgress => (l, store st c l)
  | _ => (st.ancestors c, st)

/-- Modelled from the spec: the ancestor lists of the symbols of a list, computed one
after the other and concatenated. -/
def linearizeAll (go : LinState → SymbolRef → Option (List SymbolRef × LinState)) :
    LinState → List SymbolRef → Option (List SymbolRef × LinState)
  | st, [] => some ([], st)
  | st, m :: ms =>
    match go st m with
    | none => none
    | some (l, st1) =>
      match linearizeAll go st1 ms with
      | none => none
      | some (ls, st2) => some (l ++ ls, st2)

/-- Modelled from the spec: the algorithm of the Ancestor Linearizer (the body of
`Resolver::computeLinearization` is not among the sources). Per symbol and memoized,
`ancestors(C) = dedup_keep_first(prepends(C) reversed and linearized ++ [C] ++
includes(C) reversed and linearized ++ ancestors(superclass(C)))`, by depth-first
composition in that order; meeting `C` while it is mid-computation reports an error for
`C` and substitutes `[C]`; a symbol without superclass ends the recursion. The first
argument bounds the depth of the recursion, `none` meaning that the bound was reached;
an identifier outside the table contributes nothing. -/
def linearize (tbl : SymbolTable) : Nat → LinState → SymbolRef → Option (List SymbolRef × LinState)
  | 0, _, _ => none
  | fuel + 1, st, c =>
    match st.state c with
    | ResolutionState.Resolved => some (st.ancestors c, st)
    | ResolutionState.Error => some (st.ancestors c, st)
    | ResolutionState.InProgress => some ([c], reportCycle st c)
    | ResolutionState.Unresolved =>
      match tbl[c]? with
      | none => some ([], st)
      | some sym =>
        match linearizeAll (linearize tbl fuel) (markInProgress st c) (prepends sym).reverse with
        | none => none
        | some (ps, st1) =>
          match linearizeAll (linearize tbl fuel) st1
              ((includes sym).reverse ++ sym.superclass.toList) with
          | none => none
          | some (rest, st2) => some (finish st2 c (dedupKeepFirst (ps ++ ([c] ++ rest))))

/-- The linearization of each symbol of a list in turn, from a given state. -/
def linearizeEach (tbl : SymbolTable) (fuel : Nat) : LinState → List SymbolRef → Option LinState
  | st, [] => some st
  | st, c :: cs =>
    match linearize tbl fuel st c with
    | none => none
    | some (_, st1) => linearizeEach tbl fuel st1 cs

/-- Modelled from the spec: `Resolver::computeLinearization` (declared in `resolver.h`, its
body is not among the sources): every symbol of the table is linearized, in table order. -/
def computeLinearization (tbl : SymbolTable) : Option LinState :=
  linearizeEach tbl (tbl.length + 1) LinState.init (List.range tbl.length)

/-- The ancestor list of a symbol after linearization of the whole table. -/
def ancestorsOf (tbl : SymbolTable) (c : SymbolRef) : Option (List SymbolRef) :=
  (computeLinearization tbl).map (fun st => st.ancestors c)

/-- The symbols with a reported cyclic hierarchy after linearization of the whole table. -/
def cycleErrors (tbl : SymbolTable) : Option (List SymbolRef) :=
  (computeLinearization tbl).map (fun st => st.errors)

/-- A set of symbols of the table that is closed under `parents` and on which `rank`
decreases along every declared edge: an acyclic part of the hierarchy together with
everything it is composed of. -/
def ClosedAcyclic (tbl : SymbolTable) (S : List SymbolRef) (rank : SymbolRef → Nat) : Prop :=
  ∀ x ∈ S, x < tbl.length ∧ ∀ y ∈ parents tbl x, y ∈ S ∧ rank y < rank x

instance (tbl : SymbolTable) (S : List SymbolRef) (rank : SymbolRef → Nat) :
    Decidable (ClosedAcyclic tbl S rank) := by
  unfold ClosedAcyclic
  infer_instance

/-- Symbol `y` is reached from `x` through declared superclass, include and prepend
edges, in any number of steps. -/
def Reach (tbl : SymbolTable) : SymbolRef → SymbolRef → Prop :=
  Relation.ReflTransGen (fun a b => b ∈ parents tbl a)

/-- The number of symbols of the table that are still `Unresolved`. -/
def unresolvedCount (tbl : SymbolTable) (st : LinState) : Nat :=
  ((List.range tbl.length).filter (fun x => st.state x = ResolutionState.Unresolved)).length

/-- The concatenation that the linearizer de-duplicates for `c`, written over given
ancestor lists: prepends reversed and linearized, `c`, includes reversed and linearized,
ancestors of the superclass. -/
def composed (tbl : SymbolTable) (anc : SymbolRef → List SymbolRef) (c : SymbolRef) :
    List SymbolRef :=
  match tbl[c]? with
  | none => []
  | some sym =>
    (prepends sym).reverse.flatMap anc ++
      ([c] ++ ((includes sym).reverse ++ sym.superclass.toList).flatMap anc)

/-- A symbol whose state is terminal. -/
def Terminal (st : LinState) (x : SymbolRef) : Prop :=
  st.state x = ResolutionState.Resolved ∨ st.state x = ResolutionState.Error

/-- State `st1` continues `st`: terminal entries are kept as they are, a sentinel stays or
turns into an error, no new sentinel is left behind, reported errors stay reported. -/
structure Ext (st st1 : LinState) : Prop where
  terminal : ∀ x, Terminal st x → st1.state x = st.state x ∧ st1.ancestors x = st.ancestors x
  progress : ∀ x, st.state x = ResolutionState.InProgress →
    st1.state x = ResolutionState.InProgress ∨ st1.state x = ResolutionState.Error
  noNew : ∀ x, st1.state x = ResolutionState.InProgress → st.state x = ResolutionState.InProgress
  errors : ∀ x, x ∈ st.errors → x ∈ st1.errors

/-- The invariant of the linearizer over a table, for a set `S` of symbols that is to stay
free of errors. -/
structure Inv (tbl : SymbolTable) (S : SymbolRef → Prop) (st : LinState) : Prop where
  unresolved : ∀ x, st.state x = ResolutionState.Unresolved → st.ancestors x = []
  error : ∀ x, st.state x = ResolutionState.Error → st.ancestors x = [x] ∧ x ∈ st.errors
  reported : ∀ x, x ∈ st.errors → st.state x = ResolutionState.Error
  resolved : ∀ x, st.state x = ResolutionState.Resolved →
    (st.ancestors x).Nodup ∧ x ∈ st.ancestors x
  reach : ∀ x y, y ∈ st.ancestors x → Reach tbl x y
  inTable : ∀ x, st.state x ≠ ResolutionState.Unresolved → x < tbl.length
  good : ∀ x, S x → st.state x ≠ ResolutionState.Error
  equation : ∀ x, st.state x = ResolutionState.Resolved →
    (∀ y ∈ parents tbl x, y < tbl.length → Terminal st y) ∧
    st.ancestors x = dedupKeepFirst (composed tbl st.ancestors x)
  selfLoop : ∀ x, x ∈ parents tbl x → st.state x ≠ ResolutionState.Resolved
  ordered : ∃ t : SymbolRef → Nat, ∀ x, st.state x = ResolutionState.Resolved →
    ∀ y ∈ parents tbl x, st.state y = ResolutionState.Resolved → t y < t x

/-- The condition under which `c` may be entered without meeting a sentinel of `S`: every
symbol of `S` that is mid-computation has `c` strictly below it. -/
def Guard (S : SymbolRef → Prop) (rank : SymbolRef → Nat) (st : LinState) (c : SymbolRef) :
    Prop :=
  ∀ x, S x → st.state x = ResolutionState.InProgress → S c ∧ rank c < rank x

/-- What one call of `linearize` on `c` guarantees. -/
structure Post (tbl : SymbolTable) (S : SymbolRef → Prop) (st : LinState) (c : SymbolRef)
    (l : List SymbolRef) (st1 : LinState) : Prop where
  ext : Ext st st1
  inv : Inv tbl S st1
  result : l = st1.ancestors c
  terminal : c < tbl.length → Terminal st1 c
  detected : st.state c = ResolutionState.InProgress → st1.state c = ResolutionState.Error

/-- What `linearizeAll` on a list of symbols guarantees. -/
structure PostAll (tbl : SymbolTable) (S : SymbolRef → Prop) (st : LinState)
    (ms : List SymbolRef) (ls : List SymbolRef) (st1 : LinState) : Prop where
  ext : Ext st st1
  inv : Inv tbl S st1
  result : ls = ms.flatMap st1.ancestors
  terminal : ∀ m ∈ ms, m < tbl.length → Terminal st1 m
  detected : ∀ m ∈ ms, st.state m = ResolutionState.InProgress →
    st1.state m = ResolutionState.Error

/-- The set `S` lies in the table, is closed under `parents`, and `rank` decreases along
every declared edge from it. -/
def Ranked (tbl : SymbolTable) (S : SymbolRef → Prop) (rank : SymbolRef → Nat) : Prop :=
  ∀ x, S x → x < tbl.length ∧ ∀ y ∈ parents tbl x, S y ∧ rank y < rank x

/-- An include of the module `m`. -/
def includeOf (m : SymbolRef) : MixinRef := { kind := MixinKind.Include, target := m }

/-- A symbol without superclass, mixins and marker. -/
def plainSymbol : Symbol := { superclass := none, mixins := [], mixesInClassMethods := none }

/-- The diamond `module M; class B; include M; end; class C < B; include M; end`, with
`M = 0`, `B = 1`, `C = 2`. -/
def diamondTable : SymbolTable :=
  [plainSymbol,
   { superclass := none, mixins := [includeOf 0], mixesInClassMethods := none },
   { superclass := some 1, mixins := [includeOf 0], mixesInClassMethods := none }]

/-- A class `C = 4` with superclass `B = 3` (itself below `Top = 0`) that includes the
plain modules `X = 1` then `Y = 2`. -/
def twoIncludesTable : SymbolTable :=
  [plainSymbol, plainSymbol, plainSymbol,
   { superclass := some 0, mixins := [], mixesInClassMethods := none },
   { superclass := some 3, mixins := [includeOf 1, includeOf 2], mixesInClassMethods := none }]

/-- A class `C = 4` with superclass `B = 3` that includes `X = 1` then `Y = 2`, where `Y`
itself includes the module `Z = 0`. -/
def nestedIncludeTable : SymbolTable :=
  [plainSymbol, plainSymbol,
   { superclass := none, mixins := [includeOf 0], mixesInClassMethods := none },
   plainSymbol,
   { superclass := some 3, mixins := [includeOf 1, includeOf 2], mixesInClassMethods := none }]

/-- Two classes that are each the superclass of the other: `A = 0 < B = 1 < A`. -/
def twoCycleTable : SymbolTable :=
  [{ superclass := some 1, mixins := [], mixesInClassMethods := none },
   { superclass := some 0, mixins := [], mixesInClassMethods := none }]

/-- The two cyclic classes together with an unrelated class `E = 3 < D = 2`. -/
def cycleAndChainTable : SymbolTable :=
  twoCycleTable ++ [plainSymbol, { superclass := some 2, mixins := [], mixesInClassMethods := none }]

/-- The same table with the two cyclic classes replaced by plain symbols. -/
def chainOnlyTable : SymbolTable :=
  [plainSymbol, plainSymbol, plainSymbol,
   { superclass := some 2, mixins := [], mixesInClassMethods := none }]

/-- Modelled from the spec: the identifier of the singleton class of `c`, for a table of `n` instance-level
symbols: the singletons follow the instance-level symbols. -/
def singletonOf (n : Nat) (c : SymbolRef) : SymbolRef := n + c

/-- Modelled from the spec: the companion modules contributed to the singleton of a symbol, for every included
module that carries a marker, the companion that the marker names. -/
def companions (tbl : SymbolTable) (sym : Symbol) : List SymbolRef :=
  (includes sym).filterMap (fun m =>
    match tbl[m]? with
    | some msym => msym.mixesInClassMethods
    | none => none)

/-- Modelled from the spec: the singleton class of a symbol as a node of its own; its superclass is the singleton
of the superclass, and its composition holds the companions added by the wirer. -/
def singletonSymbol (tbl : SymbolTable) (sym : Symbol) : Symbol :=
  { superclass := sym.superclass.map (singletonOf tbl.length)
    mixins := (companions tbl sym).map includeOf
    mixesInClassMethods := none }

/-- Modelled from the spec: the Mixin Class-Method Wirer (`Resolver::resolveMixesInClassMethods`
is declared in `resolver.h`, its body is not among the sources). For every class or module
`C` that includes a module carrying a marker naming `M'`, `M'` is added to the ancestor
composition of the singleton class of `C`; the result is the table followed by the
singleton classes. -/
def resolveMixesInClassMethods (tbl : SymbolTable) : SymbolTable :=
  tbl ++ tbl.map (singletonSymbol tbl)

/-- Modelled from the spec: the order of the passes around the wirer. Instance-level
hierarchies are linearized first, then the wirer runs, then the singleton classes are
linearized by the same algorithm, on the memo of the first pass. -/
def resolveAncestors (tbl : SymbolTable) : Option LinState :=
  match computeLinearization tbl with
  | none => none
  | some st =>
    linearizeEach (resolveMixesInClassMethods tbl) ((resolveMixesInClassMethods tbl).length + 1)
      st (List.range' tbl.length tbl.length)

/-- The instance-level ancestor list of `c` after all passes. -/
def instanceAncestorsOf (tbl : SymbolTable) (c : SymbolRef) : Option (List SymbolRef) :=
  (resolveAncestors tbl).map (fun st => st.ancestors c)

/-- The ancestor list of the singleton class of `c` after all passes. -/
def singletonAncestorsOf (tbl : SymbolTable) (c : SymbolRef) : Option (List SymbolRef) :=
  (resolveAncestors tbl).map (fun st => st.ancestors (singletonOf tbl.length c))

/-- Every declared superclass and mixin of the table is a symbol of the table. -/
def WellFormed (tbl : SymbolTable) : Prop :=
  ∀ x ∈ List.range tbl.length, ∀ y ∈ parents tbl x, y < tbl.length

instance (tbl : SymbolTable) : Decidable (WellFormed tbl) := by
  unfold WellFormed
  infer_instance

/-- A module `M = 1` marked with the companion `M' = 0`, and a class `C = 2` that
includes `M`. -/
def companionTable : SymbolTable :=
  [plainSymbol,
   { superclass := none, mixins := [], mixesInClassMethods := some 0 },
   { superclass := none, mixins := [includeOf 1], mixesInClassMethods := none }]

/-- A module `M = 1` marked with the companion `M' = 0`, a class `B = 2` that includes
`M'` as an ordinary module, and a class `C = 3 < B` that includes `M`. -/
def inheritedCompanionTable : SymbolTable :=
  [plainSymbol,
   { superclass := none, mixins := [], mixesInClassMethods := some 0 },
   { superclass := none, mixins := [includeOf 0], mixesInClassMethods := none },
   { superclass := some 2, mixins := [includeOf 1], mixesInClassMethods := none }]

/-! ### The constant resolution engine -/

/-- The identifier of a constant reference node, its index among the nodes of the trees. -/
abbrev NodeId := Nat

/-- Modelled from the spec: what a segment of a name path denotes once the scope chain is walked and the member
looked up: a class or module symbol, a constant declared through another reference node
(its state is the state of that node), or nothing when no member matches. -/
inductive SegmentTarget where
  | symbol (s : SymbolRef)
  | declaration (n : NodeId)
  | undefined
  deriving DecidableEq, Repr

/-- Modelled from the spec: a `Constant Reference Node`, its name path segment by segment. -/
structure ConstantReferenceNode where
  path : List SegmentTarget
  deriving DecidableEq, Repr

/-- Modelled from the spec: the resolution slot of a node with its resolution state, empty
and unresolved, empty and mid-attempt, bound to a symbol, or marked as an error. -/
inductive NodeSlot where
  | Unresolved
  | InProgress
  | Resolved (sym : SymbolRef)
  | Error
  deriving DecidableEq, Repr

/-- The state of the engine: the slots, the number of full passes made so far, and the
nodes reported as errors. -/
structure EngineState where
  slots : NodeId → NodeSlot
  passes : Nat
  errors : List NodeId

/-- The state before the first pass. -/
def EngineState.init : EngineState :=
  { slots := fun _ => NodeSlot.Unresolved, passes := 0, errors := [] }

/-- The assignment of a slot. -/
def setSlot (slots : NodeId → NodeSlot) (i : NodeId) (v : NodeSlot) : NodeId → NodeSlot :=
  fun x => if x = i then v else slots x

/-- Modelled from the spec: the resolution of the segments of a path from left to right, `cur` being the symbol
reached so far: `none` when a segment does not resolve, because its target is unresolved
or mid-attempt, or because nothing matches. -/
def resolveSegments (slots : NodeId → NodeSlot) : Option SymbolRef → List SegmentTarget →
    Option SymbolRef
  | cur, [] => cur
  | _, SegmentTarget.symbol s :: rest => resolveSegments slots (some s) rest
  | _, SegmentTarget.declaration n :: rest =>
    match slots n with
    | NodeSlot.Resolved s => resolveSegments slots (some s) rest
    | _ => none
  | _, SegmentTarget.undefined :: _ => none

/-- Modelled from the spec: one attempt on node `i`. The node is mid-attempt while its segments are resolved; it
is bound when every segment resolves and goes back to unresolved (deferred) otherwise. -/
def attempt (nodes : List ConstantReferenceNode) (slots : NodeId → NodeSlot) (i : NodeId) :
    NodeId → NodeSlot :=
  match nodes[i]? with
  | none => slots
  | some node =>
    match resolveSegments (setSlot slots i NodeSlot.InProgress) none node.path with
    | some s => setSlot slots i (NodeSlot.Resolved s)
    | none => setSlot slots i NodeSlot.Unresolved

/-- Modelled from the spec: one full pass over the worklist, in its order: the slots after the pass and the nodes
deferred to the next pass. -/
def pass (nodes : List ConstantReferenceNode) :
    List NodeId → (NodeId → NodeSlot) → (NodeId → NodeSlot) × List NodeId
  | [], slots => (slots, [])
  | i :: rest, slots =>
    match attempt nodes slots i i with
    | NodeSlot.Resolved _ => pass nodes rest (attempt nodes slots i)
    | _ => ((pass nodes rest (attempt nodes slots i)).1,
            i :: (pass nodes rest (attempt nodes slots i)).2)

/-- Modelled from the spec: the end of a run without progress, the nodes still deferred are marked as errors and
reported in declaration order. -/
def markErrors (nodes : List ConstantReferenceNode) (st : EngineState) (deferred : List NodeId) :
    EngineState :=
  { st with
    slots := fun x => if x ∈ deferred then NodeSlot.Error else st.slots x
    errors := st.errors ++ (List.range nodes.length).filter (fun x => x ∈ deferred) }

/-- Modelled from the spec: the fixpoint. Full passes are repeated while nodes are left and the last pass made
progress, that is resolved at least one node. The first argument bounds the number of
passes, `none` meaning that the bound was reached. -/
def resolveLoop (nodes : List ConstantReferenceNode) :
    Nat → List NodeId → EngineState → Option EngineState
  | 0, _, _ => none
  | fuel + 1, worklist, st =>
    if worklist.isEmpty then some st
    else if (pass nodes worklist st.slots).2.length < worklist.length then
      resolveLoop nodes fuel (pass nodes worklist st.slots).2
        { st with slots := (pass nodes worklist st.slots).1, passes := st.passes + 1 }
    else
      some (markErrors nodes
        { st with slots := (pass nodes worklist st.slots).1, passes := st.passes + 1 }
        (pass nodes worklist st.slots).2)

/-- Modelled from the spec: the Constant Resolution Engine (`Resolver::runConstantResolution`
is declared in `resolver.h`, its body is not among the sources). The worklist holds all the
nodes in some order; full passes are repeated until nothing is left or a pass makes no
progress, and the nodes then still deferred become errors. The scope walk and the member
lookups are summarised by the target that each segment of a path denotes. -/
def runConstantResolution (nodes : List ConstantReferenceNode) (worklist : List NodeId) :
    Option EngineState :=
  resolveLoop nodes (worklist.length + 1) worklist EngineState.init

/-- The nodes through which the segments of the path of node `i` go. -/
def depsOf (nodes : List ConstantReferenceNode) (i : NodeId) : List NodeId :=
  match nodes[i]? with
  | none => []
  | some node => node.path.filterMap (fun seg =>
      match seg with
      | SegmentTarget.declaration n => some n
      | _ => none)

/-- Node `i` depends on node `j`: a segment of the path of `i` is declared through `j`. -/
def DependsOn (nodes : List ConstantReferenceNode) (i j : NodeId) : Prop :=
  j ∈ depsOf nodes i

/-- A segment denotes something among `n` nodes: a symbol, or a declaration made through
one of the nodes. -/
def segmentDefined (n : Nat) : SegmentTarget → Bool
  | SegmentTarget.symbol _ => true
  | SegmentTarget.declaration j => decide (j < n)
  | SegmentTarget.undefined => false

/-- Every path has a segment, every segment denotes something, and the declarations the
paths go through are nodes of the trees. -/
def Defined (nodes : List ConstantReferenceNode) : Prop :=
  ∀ node ∈ nodes, node.path ≠ [] ∧ ∀ seg ∈ node.path, segmentDefined nodes.length seg = true

instance (nodes : List ConstantReferenceNode) : Decidable (Defined nodes) := by
  unfold Defined
  infer_instance

/-- Three declarations in a chain, `A = B`, `B = C`, `C = K` with `K` the class 7: node 0
goes through node 1, node 1 through node 2. -/
def chainNodes : List ConstantReferenceNode :=
  [{ path := [SegmentTarget.declaration 1] },
   { path := [SegmentTarget.declaration 2] },
   { path := [SegmentTarget.symbol 7] }]

/-- The number of passes and the final slots of the first `n` nodes of a run. -/
def runSummary (nodes : List ConstantReferenceNode) (worklist : List NodeId) :
    Option (Nat × List NodeSlot × List NodeId) :=
  (runConstantResolution nodes worklist).map
    (fun st => (st.passes, (List.range nodes.length).map st.slots, st.errors))

end resolver

end sorbet

/-! # Theorems -/

namespace sorbet

/-! ## Theorems on `parser/Parser.cc` -/

namespace parser

theorem translatePos_le (pos maxOff : Nat) : ErrorToError.translatePos pos maxOff ≤ maxOff := by
  unfold ErrorToError.translatePos
  split
  · next h => subst h; simp [u4]
  · exact Nat.min_le_right _ _

theorem translatePos_mono (a b m n : Nat) (hab : a ≤ b) (hb : b < 2 ^ 32) (hmn : m ≤ n) :
    ErrorToError.translatePos a m ≤ ErrorToError.translatePos b n := by
  unfold ErrorToError.translatePos u4
  have ha : a < 2 ^ 32 := lt_of_le_of_lt hab hb
  rw [Nat.mod_eq_of_lt ha, Nat.mod_eq_of_lt hb]
  by_cases h0 : a = 0
  · simp [h0]
  · have hb0 : b ≠ 0 := by omega
    simp only [h0, hb0, if_false]
    exact min_le_min hab hmn

theorem step_news (ext : Externals) (file : FileRef) (maxOff : Nat) (gs : GlobalState)
    (d : diagnostic) :
    (ErrorToError.step ext file maxOff gs d).files = gs.files ∧
    ∃ news, (ErrorToError.step ext file maxOff gs d).begun = gs.begun ++ news ∧
      news.map (fun e => (e.loc, e.what)) =
        ([d].filter (fun d => d.level = dlevel.ERROR ∨ d.level = dlevel.FATAL)).map
          (fun d => (ErrorToError.diagLoc file maxOff d, ErrorToError.sorbetErrorClass d)) := by
  cases hl : d.level
  · exact ⟨by simp [ErrorToError.step, hl], [], by simp [ErrorToError.step, hl]⟩
  · exact ⟨by simp [ErrorToError.step, hl], [], by simp [ErrorToError.step, hl]⟩
  · refine ⟨by simp [ErrorToError.step, hl, beginError],
      (beginError ext { files := gs.files, begun := [] } (ErrorToError.diagLoc file maxOff d)
        (ErrorToError.sorbetErrorClass d)
        (ext.format (ext.dclassStrings d.error_class) d.data)).begun.map
          (fun e => { e with header := if ext.live gs e.loc e.what then some (ext.format (ext.dclassStrings d.error_class) d.data) else none }), ?_, ?_⟩
    · simp [ErrorToError.step, hl, beginError]
    · simp [hl, beginError]
  · refine ⟨by simp [ErrorToError.step, hl, beginError],
      (beginError ext { files := gs.files, begun := [] } (ErrorToError.diagLoc file maxOff d)
        (ErrorToError.sorbetErrorClass d)
        (ext.format (ext.dclassStrings d.error_class) d.data)).begun.map
          (fun e => { e with header := if ext.live gs e.loc e.what then some (ext.format (ext.dclassStrings d.error_class) d.data) else none }), ?_, ?_⟩
    · simp [ErrorToError.step, hl, beginError]
    · simp [hl, beginError]

theorem foldl_step_news (ext : Externals) (file : FileRef) (maxOff : Nat)
    (diagnostics : List diagnostic) (gs : GlobalState) :
    (diagnostics.foldl (ErrorToError.step ext file maxOff) gs).files = gs.files ∧
    ∃ news, (diagnostics.foldl (ErrorToError.step ext file maxOff) gs).begun = gs.begun ++ news ∧
      news.map (fun e => (e.loc, e.what)) =
        (diagnostics.filter (fun d => d.level = dlevel.ERROR ∨ d.level = dlevel.FATAL)).map
          (fun d => (ErrorToError.diagLoc file maxOff d, ErrorToError.sorbetErrorClass d)) := by
  induction diagnostics generalizing gs with
  | nil => exact ⟨rfl, [], by simp⟩
  | cons d ds ih =>
    simp only [List.foldl_cons]
    obtain ⟨h1, news2, h2, h3⟩ := ih (ErrorToError.step ext file maxOff gs d)
    obtain ⟨g1, news1, g2, g3⟩ := step_news ext file maxOff gs d
    refine ⟨by rw [h1, g1], news1 ++ news2, by rw [h2, g2, List.append_assoc], ?_⟩
    rw [List.map_append, g3, h3, ← List.map_append, ← List.filter_append]
    rfl

theorem run_news (ext : Externals) (gs : GlobalState) (file : FileRef)
    (diagnostics : List diagnostic) :
    ∃ news, (ErrorToError.run ext gs file diagnostics).begun = gs.begun ++ news ∧
      news.map (fun e => (e.loc, e.what)) =
        (diagnostics.filter (fun d => d.level = dlevel.ERROR ∨ d.level = dlevel.FATAL)).map
          (fun d => (ErrorToError.diagLoc file (u4 (gs.files file).source.utf8ByteSize) d,
            ErrorToError.sorbetErrorClass d)) := by
  unfold ErrorToError.run
  split
  · next h => exact ⟨[], by simp [List.isEmpty_iff.mp h]⟩
  · exact (foldl_step_news ext file _ diagnostics _).2

/-- C9. `ErrorToError::run` begins one error for each diagnostic of level ERROR or FATAL,
in the order of the list, and none for a NOTE or a WARNING; the class of each error is
`MethodWithoutSelector` exactly when the class of the diagnostic is, and `ParserError`
otherwise; on the empty list the state (errors and `hasParseErrors`) is left as it was. -/
theorem run_begins_error_per_error_or_fatal (ext : Externals) (gs : GlobalState)
    (file : FileRef) (diagnostics : List diagnostic) :
    (∃ news, (ErrorToError.run ext gs file diagnostics).begun = gs.begun ++ news ∧
      news.map (fun e => (e.loc, e.what)) =
        (diagnostics.filter (fun d => d.level = dlevel.ERROR ∨ d.level = dlevel.FATAL)).map
          (fun d => (ErrorToError.diagLoc file (u4 (gs.files file).source.utf8ByteSize) d,
            if d.error_class = dclass.MethodWithoutSelector
            then ErrorClass.MethodWithoutSelector else ErrorClass.ParserError))) ∧
    ErrorToError.run ext gs file [] = gs :=
  ⟨run_news ext gs file diagnostics, by simp [ErrorToError.run]⟩

/-- C10. `translatePos pos maxOff` is 0 for `pos = 0` and `min (pos mod 2^32) maxOff`
otherwise, and never exceeds `maxOff`; so when the source length `maxOff` (on 32 bits) is
at least 1, every error begun for an ERROR or FATAL diagnostic with
`beginPos ≤ endPos < 2^32` has `begin ≤ maxOff - 1`, `end ≤ maxOff` and `begin ≤ end`. -/
theorem reported_loc_within_source (ext : Externals) (gs : GlobalState) (file : FileRef)
    (diagnostics : List diagnostic)
    (hsize : 1 ≤ u4 (gs.files file).source.utf8ByteSize)
    (hpos : ∀ d ∈ diagnostics, (d.level = dlevel.ERROR ∨ d.level = dlevel.FATAL) →
      d.location.beginPos ≤ d.location.endPos ∧ d.location.endPos < 2 ^ 32) :
    (∀ pos maxOff, ErrorToError.translatePos pos maxOff =
        if pos = 0 then 0 else min (pos % 2 ^ 32) maxOff) ∧
    (∀ pos maxOff, ErrorToError.translatePos pos maxOff ≤ maxOff) ∧
    ∃ news, (ErrorToError.run ext gs file diagnostics).begun = gs.begun ++ news ∧
      news.length =
        (diagnostics.filter (fun d => d.level = dlevel.ERROR ∨ d.level = dlevel.FATAL)).length ∧
      ∀ e ∈ news,
        e.loc.beginPos ≤ u4 (gs.files file).source.utf8ByteSize - 1 ∧
        e.loc.endPos ≤ u4 (gs.files file).source.utf8ByteSize ∧
        e.loc.beginPos ≤ e.loc.endPos := by
  refine ⟨?_, translatePos_le, ?_⟩
  · intro pos maxOff
    unfold ErrorToError.translatePos u4
    split
    · next h => subst h; simp
    · rfl
  · obtain ⟨news, hnews, hmap⟩ := run_news ext gs file diagnostics
    refine ⟨news, hnews, ?_, ?_⟩
    · have := congrArg List.length hmap
      simpa using this
    · intro e he
      have hmem : (e.loc, e.what) ∈ news.map (fun e => (e.loc, e.what)) :=
        List.mem_map.mpr ⟨e, he, rfl⟩
      rw [hmap] at hmem
      obtain ⟨d, hd, hde⟩ := List.mem_map.mp hmem
      obtain ⟨hdm, hlev⟩ := List.mem_filter.mp hd
      have hlev2 : d.level = dlevel.ERROR ∨ d.level = dlevel.FATAL := by simpa using hlev
      obtain ⟨hbe, hend⟩ := hpos d hdm hlev2
      have hloc : e.loc = ErrorToError.diagLoc file (u4 (gs.files file).source.utf8ByteSize) d :=
        (congrArg Prod.fst hde).symm
      have hlt : u4 (gs.files file).source.utf8ByteSize < 2 ^ 32 := Nat.mod_lt _ (by norm_num)
      have hm1 : u4 (u4 (gs.files file).source.utf8ByteSize + 2 ^ 32 - 1) =
          u4 (gs.files file).source.utf8ByteSize - 1 := by
        generalize u4 (gs.files file).source.utf8ByteSize = m at hsize hlt
        unfold u4
        have : m + 2 ^ 32 - 1 = (m - 1) + 2 ^ 32 := by omega
        rw [this, Nat.add_mod_right, Nat.mod_eq_of_lt (by omega)]
      rw [hloc]
      simp only [ErrorToError.diagLoc, hm1]
      refine ⟨translatePos_le _ _, translatePos_le _ _, ?_⟩
      exact translatePos_mono _ _ _ _ hbe hend (Nat.sub_le _ _)

/-- Witness of C10: one ERROR diagnostic at offsets 1 to 7 of a three byte file. -/
theorem reported_loc_within_source_witness :
    1 ≤ u4 (demoState.files 0).source.utf8ByteSize ∧
    ∃ news, (ErrorToError.run demoExternals demoState 0
        [{ level := dlevel.ERROR, error_class := dclass.other 3, data := "x",
           location := { beginPos := 1, endPos := 7 } }]).begun = demoState.begun ++ news ∧
      news.length = 1 ∧
      ∀ e ∈ news, e.loc.beginPos ≤ 3 - 1 ∧ e.loc.endPos ≤ 3 ∧ e.loc.beginPos ≤ e.loc.endPos :=
  ⟨by decide,
   (reported_loc_within_source demoExternals demoState 0
      [{ level := dlevel.ERROR, error_class := dclass.other 3, data := "x",
         location := { beginPos := 1, endPos := 7 } }]
      (by decide) (by simp)).2.2⟩

/-- C8. `Parser::run` never returns the null pointer: the result is the tree of the
builder when there is one, and otherwise a `Begin` node without statements at
`Loc(file, 0, 0)`; in both cases the state returned is the one after
`ErrorToError::run` on the diagnostics of the driver. -/
theorem run_never_null (ext : Externals) (build : Builder) (gs : GlobalState)
    (file : FileRef) (initialLocals : List String) :
    (Parser.run ext build gs file initialLocals).1 ≠ none ∧
    (∀ ast, (build gs file initialLocals).ast = some ast →
      (Parser.run ext build gs file initialLocals).1 = some ast) ∧
    ((build gs file initialLocals).ast = none →
      (Parser.run ext build gs file initialLocals).1 =
        some (Node.Begin { file := file, beginPos := 0, endPos := 0 } [])) ∧
    (Parser.run ext build gs file initialLocals).2 =
      ErrorToError.run ext (build gs file initialLocals).gs file
        (build gs file initialLocals).diagnostics := by
  simp only [Parser.run]
  generalize build gs file initialLocals = out
  rcases out with ⟨ast, diags, gs1⟩
  cases ast <;> simp

end parser

/-! ## Theorems on the error check of `PerPhaseTest` -/

namespace test

theorem findIn_iff (needle hay : List Char) : findIn needle hay = true ↔ needle <:+: hay := by
  induction hay with
  | nil => simp [findIn, List.infix_nil]
  | cons c rest ih =>
    simp only [findIn, Bool.or_eq_true, List.isPrefixOf_iff_prefix, ih, List.infix_cons_iff]

theorem containsText_iff (formatted expected : String) :
    containsText formatted expected = true ↔ expected.toList <:+: formatted.toList :=
  findIn_iff _ _

theorem scanLine_matched (expected : List (Nat × String)) (error : BasicError) (s : LineScan)
    (i : Nat) (hm : MatchedAt expected error i) :
    scanLine expected error s i =
      { s with found := true, seenErrorLines := s.seenErrorLines.insert i } := by
  obtain ⟨text, h, hne, hin⟩ := hm
  have he : ¬ text.isEmpty = true := fun h0 => hne ((String.isEmpty_iff text).mp h0)
  have hc : containsText error.formatted text = true := (containsText_iff _ _).mpr hin
  unfold scanLine
  rw [h]
  simp only [he, hc, if_false, Bool.not_true, Bool.false_eq_true]

theorem scanLine_unmatched (expected : List (Nat × String)) (error : BasicError) (s : LineScan)
    (i : Nat) (hm : ¬ MatchedAt expected error i) :
    (scanLine expected error s i).found = s.found ∧
    (scanLine expected error s i).seenErrorLines = s.seenErrorLines := by
  unfold scanLine
  cases h : findExpected expected i with
  | none => exact ⟨rfl, rfl⟩
  | some text =>
    by_cases he : text.isEmpty = true
    · simp only [he, if_true, and_self]
    · have hne : text ≠ "" := fun h0 => he ((String.isEmpty_iff text).mpr h0)
      have hc : containsText error.formatted text = false := by
        cases hc : containsText error.formatted text with
        | false => rfl
        | true => exact absurd ⟨text, h, hne, (containsText_iff _ _).mp hc⟩ hm
      simp only [he, hc, Bool.false_eq_true, if_false, Bool.not_false, if_true, and_self]

theorem scanLine_found (expected : List (Nat × String)) (error : BasicError) (s : LineScan)
    (i : Nat) :
    ((scanLine expected error s i).found = true ↔ s.found = true ∨ MatchedAt expected error i) := by
  by_cases hm : MatchedAt expected error i
  · rw [scanLine_matched _ _ _ _ hm]
    exact ⟨fun _ => Or.inr hm, fun _ => rfl⟩
  · rw [(scanLine_unmatched _ _ s _ hm).1]
    exact ⟨Or.inl, fun h => h.resolve_right hm⟩

theorem scanLine_seen (expected : List (Nat × String)) (error : BasicError) (s : LineScan)
    (i j : Nat) :
    (j ∈ (scanLine expected error s i).seenErrorLines ↔
      j ∈ s.seenErrorLines ∨ (j = i ∧ MatchedAt expected error i)) := by
  by_cases hm : MatchedAt expected error i
  · rw [scanLine_matched _ _ _ _ hm]
    show j ∈ List.insert i s.seenErrorLines ↔ _
    rw [List.mem_insert_iff]
    constructor
    · rintro (h | h)
      · exact Or.inr ⟨h, hm⟩
      · exact Or.inl h
    · rintro (h | ⟨h, -⟩)
      · exact Or.inr h
      · exact Or.inl h
  · rw [(scanLine_unmatched _ _ s _ hm).2]
    exact ⟨Or.inl, fun h => h.resolve_right (fun h2 => hm h2.2)⟩

theorem scanLine_unexpected (expected : List (Nat × String)) (error : BasicError) (s : LineScan)
    (i : Nat) (x : BasicError) :
    (Failure.unexpectedError x ∈ (scanLine expected error s i).failures ↔
      Failure.unexpectedError x ∈ s.failures) := by
  unfold scanLine
  cases h : findExpected expected i with
  | none => simp
  | some text =>
    by_cases he : text.isEmpty = true
    · simp [he]
    · by_cases hc : containsText error.formatted text = true
      · simp [he, hc]
      · simp [he, hc]

theorem scan_foldl (expected : List (Nat × String)) (error : BasicError) (lines : List Nat)
    (s : LineScan) :
    (((lines.foldl (scanLine expected error) s).found = true ↔
        s.found = true ∨ ∃ i ∈ lines, MatchedAt expected error i) ∧
     (∀ j, j ∈ (lines.foldl (scanLine expected error) s).seenErrorLines ↔
        j ∈ s.seenErrorLines ∨ (j ∈ lines ∧ MatchedAt expected error j)) ∧
     (∀ x, Failure.unexpectedError x ∈ (lines.foldl (scanLine expected error) s).failures ↔
        Failure.unexpectedError x ∈ s.failures)) := by
  induction lines generalizing s with
  | nil => simp
  | cons i rest ih =>
    simp only [List.foldl_cons]
    obtain ⟨h1, h2, h3⟩ := ih (scanLine expected error s i)
    refine ⟨?_, ?_, ?_⟩
    · rw [h1, scanLine_found]
      simp only [List.mem_cons, exists_eq_or_imp, or_assoc]
    · intro j
      rw [h2, scanLine_seen]
      constructor
      · rintro ((h | ⟨rfl, h⟩) | ⟨h, h'⟩)
        · exact Or.inl h
        · exact Or.inr ⟨List.mem_cons_self _ _, h⟩
        · exact Or.inr ⟨List.mem_cons_of_mem _ h, h'⟩
      · rintro (h | ⟨h, h'⟩)
        · exact Or.inl (Or.inl h)
        · rcases List.mem_cons.mp h with rfl | h
          · exact Or.inl (Or.inr ⟨rfl, h'⟩)
          · exact Or.inr ⟨h, h'⟩
    · intro x
      rw [h3, scanLine_unexpected]

theorem mem_lineRange (pos : Detail × Detail) (i : Nat) :
    i ∈ lineRange pos ↔ pos.1.line ≤ i ∧ i ≤ pos.2.line := by
  unfold lineRange
  rw [List.mem_range']
  constructor
  · rintro ⟨k, hk, rfl⟩
    omega
  · rintro ⟨h1, h2⟩
    exact ⟨i - pos.1.line, by omega, by omega⟩

theorem checkLocated_unexpected (expected : List (Nat × String)) (st : CheckState)
    (error : BasicError) (pos : Detail × Detail) (x : BasicError) :
    (Failure.unexpectedError x ∈ (checkLocated expected st error pos).failures ↔
      Failure.unexpectedError x ∈ st.failures ∨
        (x = error ∧ ¬ ∃ i ∈ lineRange pos, MatchedAt expected error i)) := by
  obtain ⟨h1, -, h3⟩ := scan_foldl expected error (lineRange pos)
    { failures := st.failures, seenErrorLines := st.seenErrorLines, found := false }
  simp only [checkLocated]
  revert h1 h3
  generalize List.foldl (scanLine expected error)
      { failures := st.failures, seenErrorLines := st.seenErrorLines, found := false }
      (lineRange pos) = sc
  intro h1 h3
  simp only [Bool.false_eq_true, false_or] at h1
  cases hf : sc.found with
  | true =>
    have hm := h1.mp hf
    simp only [if_true, h3]
    constructor
    · exact Or.inl
    · rintro (h | ⟨-, h⟩)
      · exact h
      · exact absurd hm h
  | false =>
    have hm : ¬ ∃ i ∈ lineRange pos, MatchedAt expected error i := fun h => by
      have := h1.mpr h
      rw [hf] at this
      exact Bool.false_ne_true this
    simp only [Bool.false_eq_true, if_false, List.mem_append, h3, List.mem_singleton,
      Failure.unexpectedError.injEq]
    constructor
    · rintro (h | h)
      · exact Or.inl h
      · exact Or.inr ⟨h, hm⟩
    · rintro (h | ⟨h, -⟩)
      · exact Or.inl h
      · exact Or.inr h

theorem checkLocated_seen (expected : List (Nat × String)) (st : CheckState)
    (error : BasicError) (pos : Detail × Detail) (j : Nat) :
    (j ∈ (checkLocated expected st error pos).seenErrorLines ↔
      j ∈ st.seenErrorLines ∨ (j ∈ lineRange pos ∧ MatchedAt expected error j)) := by
  obtain ⟨-, h2, -⟩ := scan_foldl expected error (lineRange pos)
    { failures := st.failures, seenErrorLines := st.seenErrorLines, found := false }
  simp only [checkLocated]
  exact h2 j

theorem checkUnknownLoc_unexpected (expected : List (Nat × String)) (st : CheckState)
    (error : BasicError) (x : BasicError) :
    (Failure.unexpectedError x ∈ (checkUnknownLoc expected st error).failures ↔
      Failure.unexpectedError x ∈ st.failures) := by
  cases h : findExpected expected st.unknownLocErrorLine with
  | none => simp [checkUnknownLoc, h]
  | some text =>
    cases hc : containsText error.formatted text <;> simp [checkUnknownLoc, h, hc]

theorem checkError_unexpected (expected : List (Nat × String)) (st : CheckState)
    (error : BasicError) (x : BasicError) :
    (Failure.unexpectedError x ∈ (checkError expected st error).failures ↔
      Failure.unexpectedError x ∈ st.failures ∨
        (x = error ∧ ∃ pos, error.loc = some pos ∧
          ¬ ∃ i ∈ lineRange pos, MatchedAt expected error i)) := by
  cases h : error.loc with
  | none => simp [checkError, h, checkUnknownLoc_unexpected]
  | some pos => simp [checkError, h, checkLocated_unexpected]

theorem foldl_checkError_unexpected (expected : List (Nat × String)) (errors : List BasicError)
    (st : CheckState) (x : BasicError) :
    (Failure.unexpectedError x ∈ (errors.foldl (checkError expected) st).failures ↔
      Failure.unexpectedError x ∈ st.failures ∨
        (x ∈ errors ∧ ∃ pos, x.loc = some pos ∧
          ¬ ∃ i ∈ lineRange pos, MatchedAt expected x i)) := by
  induction errors generalizing st with
  | nil => simp
  | cons e rest ih =>
    simp only [List.foldl_cons]
    rw [ih, checkError_unexpected]
    constructor
    · rintro ((h | ⟨rfl, h⟩) | ⟨h, h'⟩)
      · exact Or.inl h
      · exact Or.inr ⟨List.mem_cons_self _ _, h⟩
      · exact Or.inr ⟨List.mem_cons_of_mem _ h, h'⟩
    · rintro (h | ⟨h, h'⟩)
      · exact Or.inl (Or.inl h)
      · rcases List.mem_cons.mp h with rfl | h
        · exact Or.inl (Or.inr ⟨rfl, h'⟩)
        · exact Or.inr ⟨h, h'⟩

theorem unexpected_not_mem_missed (expected : List (Nat × String)) (seen : List Nat)
    (x : BasicError) : Failure.unexpectedError x ∉ missedExpected expected seen := by
  simp [missedExpected]

/-- C7. For a reported error with a known location, `PerPhaseTest` records the failure
"Unexpected error" exactly when no line of the range of the error carries an expected text
that is not empty and occurs in the formatted message; and handling such an error puts a
line into the seen set only when the line is in the range and carries such a text. -/
theorem unexpected_error_iff_no_matching_line (src : String) (errors : List BasicError)
    (error : BasicError) (pos : Detail × Detail)
    (hmem : error ∈ errors) (hloc : error.loc = some pos) :
    (Failure.unexpectedError error ∈ PerPhaseTest src errors ↔
      ¬ ∃ i, pos.1.line ≤ i ∧ i ≤ pos.2.line ∧
        ∃ text, findExpected (expectedErrors src) i = some text ∧ text ≠ "" ∧
          text.toList <:+: error.formatted.toList) ∧
    (∀ (st : CheckState) (i : Nat),
      i ∈ (checkError (expectedErrors src) st error).seenErrorLines →
      i ∉ st.seenErrorLines →
        pos.1.line ≤ i ∧ i ≤ pos.2.line ∧
        ∃ text, findExpected (expectedErrors src) i = some text ∧ text ≠ "" ∧
          text.toList <:+: error.formatted.toList) := by
  constructor
  · have hlen : errors.length > 0 := List.length_pos_of_mem hmem
    simp only [PerPhaseTest, hlen, if_true, List.mem_append, unexpected_not_mem_missed, or_false,
      afterErrors]
    rw [foldl_checkError_unexpected]
    simp only [List.not_mem_nil, false_or, hmem, true_and, hloc, Option.some.injEq,
      exists_eq_left']
    constructor
    · rintro h ⟨i, h1, h2, hm⟩
      exact h ⟨i, (mem_lineRange pos i).mpr ⟨h1, h2⟩, hm⟩
    · rintro h ⟨i, hi, hm⟩
      obtain ⟨h1, h2⟩ := (mem_lineRange pos i).mp hi
      exact h ⟨i, h1, h2, hm⟩
  · intro st i hi hni
    simp only [checkError, hloc] at hi
    rcases (checkLocated_seen _ _ _ _ _).mp hi with h | ⟨h, hm⟩
    · exact absurd h hni
    · obtain ⟨h1, h2⟩ := (mem_lineRange pos i).mp h
      exact ⟨h1, h2, hm⟩

/-- Witness of C7: the error on line 2 of a two line source whose line 1 carries the
expected text. -/
theorem unexpected_error_iff_no_matching_line_witness :
    (Failure.unexpectedError { loc := some (⟨2, 1⟩, ⟨2, 4⟩), formatted := "bar" } ∈
        PerPhaseTest "foo # error: bar\nbaz\n"
          [{ loc := some (⟨2, 1⟩, ⟨2, 4⟩), formatted := "bar" }] ↔
      ¬ ∃ i, 2 ≤ i ∧ i ≤ 2 ∧
        ∃ text, findExpected (expectedErrors "foo # error: bar\nbaz\n") i = some text ∧
          text ≠ "" ∧ text.toList <:+: "bar".toList) :=
  (unexpected_error_iff_no_matching_line "foo # error: bar\nbaz\n"
    [{ loc := some (⟨2, 1⟩, ⟨2, 4⟩), formatted := "bar" }]
    { loc := some (⟨2, 1⟩, ⟨2, 4⟩), formatted := "bar" } (⟨2, 1⟩, ⟨2, 4⟩)
    (List.mem_singleton.mpr rfl) rfl).1

/-- The expected text of line `i` is the capture of `errorRegex` on the line, the lines
being numbered from `k` on. -/
theorem findExpected_collectExpected (lines : List (List Char)) :
    ∀ (k i : Nat), findExpected (collectExpected k lines) i =
      if i < k then none else ((lines[i - k]?).bind errorRegex).map String.mk := by
  induction lines with
  | nil =>
    intro k i
    simp [collectExpected, findExpected]
  | cons line rest ih =>
    intro k i
    have hih := ih (k + 1) i
    by_cases hik : i < k
    · have h1 : i < k + 1 := by omega
      have hne : ¬ k = i := by omega
      simp only [hik, h1, if_true] at hih ⊢
      cases hr : errorRegex line with
      | none =>
        simp only [collectExpected, hr]
        exact hih
      | some text =>
        simp only [collectExpected, hr]
        simp only [findExpected, List.find?_cons, hne, decide_False] at hih ⊢
        exact hih
    · by_cases hki : i = k
      · subst hki
        cases hr : errorRegex line with
        | none =>
          simp only [collectExpected, hr]
          rw [hih]
          simp [hr]
        | some text =>
          simp [collectExpected, hr, findExpected]
      · have h1 : ¬ i < k + 1 := by omega
        have hne : ¬ k = i := fun h => hki h.symm
        have hidx : i - k = (i - (k + 1)) + 1 := by omega
        simp only [hik, h1, if_false] at hih ⊢
        rw [hidx, List.getElem?_cons_succ]
        cases hr : errorRegex line with
        | none =>
          simp only [collectExpected, hr]
          exact hih
        | some text =>
          simp only [collectExpected, hr]
          simp only [findExpected, List.find?_cons, hne, decide_False] at hih ⊢
          exact hih

/-- The expected text found for line `i` of a source is what `errorRegex` captures on
the line of that number, lines being numbered from 1. -/
theorem findExpected_expectedErrors (src : String) (i : Nat) :
    findExpected (expectedErrors src) i =
      if i < 1 then none
      else (((getlines [] src.toList)[i - 1]?).bind errorRegex).map String.mk :=
  findExpected_collectExpected _ 1 i

/-- A capture of `errorRegex` comes from an occurrence of the marker in the line. -/
theorem errorRegex_some (line text : List Char) (h : errorRegex line = some text) :
    ∃ pre post, line = pre ++ errorMarker ++ post ∧ text = captureGroup post := by
  induction line with
  | nil => simp [errorRegex] at h
  | cons c rest ih =>
    unfold errorRegex at h
    by_cases hp : errorMarker.isPrefixOf (c :: rest) = true
    · simp only [hp, if_true, Option.some.injEq] at h
      obtain ⟨post, hpost⟩ := List.isPrefixOf_iff_prefix.mp hp
      refine ⟨[], post, by simpa using hpost.symm, ?_⟩
      rw [← h, ← hpost]
      simp
    · simp only [hp] at h
      obtain ⟨pre, post, h1, h2⟩ := ih h
      exact ⟨c :: pre, post, by simp [h1], h2⟩

theorem mem_missedExpected (expected : List (Nat × String)) (seen : List Nat) (line : Nat) :
    Failure.expectedDidntHappen line ∈ missedExpected expected seen ↔
      (∃ text, (line, text) ∈ expected) ∧ line ∉ seen := by
  simp only [missedExpected, List.mem_map, List.mem_filter, Failure.expectedDidntHappen.injEq]
  constructor
  · rintro ⟨⟨l, t⟩, ⟨h1, h2⟩, rfl⟩
    exact ⟨⟨t, h1⟩, by simpa using h2⟩
  · rintro ⟨⟨t, h1⟩, h2⟩
    exact ⟨(line, t), ⟨h1, by simpa using h2⟩, rfl⟩

theorem scanLine_didntHappen (expected : List (Nat × String)) (error : BasicError) (s : LineScan)
    (i line : Nat) :
    (Failure.expectedDidntHappen line ∈ (scanLine expected error s i).failures ↔
      Failure.expectedDidntHappen line ∈ s.failures) := by
  unfold scanLine
  cases h : findExpected expected i with
  | none => simp
  | some text =>
    by_cases he : text.isEmpty = true
    · simp [he]
    · by_cases hc : containsText error.formatted text = true
      · simp [he, hc]
      · simp [he, hc]

theorem scan_foldl_didntHappen (expected : List (Nat × String)) (error : BasicError)
    (lines : List Nat) (s : LineScan) (line : Nat) :
    (Failure.expectedDidntHappen line ∈ (lines.foldl (scanLine expected error) s).failures ↔
      Failure.expectedDidntHappen line ∈ s.failures) := by
  induction lines generalizing s with
  | nil => simp
  | cons i rest ih =>
    simp only [List.foldl_cons]
    rw [ih, scanLine_didntHappen]

theorem checkError_didntHappen (expected : List (Nat × String)) (st : CheckState)
    (error : BasicError) (line : Nat) :
    (Failure.expectedDidntHappen line ∈ (checkError expected st error).failures ↔
      Failure.expectedDidntHappen line ∈ st.failures) := by
  cases h : error.loc with
  | none =>
    simp only [checkError, h, checkUnknownLoc]
    cases h2 : findExpected expected st.unknownLocErrorLine with
    | none => simp
    | some text => cases hc : containsText error.formatted text <;> simp [hc]
  | some pos =>
    simp only [checkError, h, checkLocated]
    have := scan_foldl_didntHappen expected error (lineRange pos)
      { failures := st.failures, seenErrorLines := st.seenErrorLines, found := false } line
    split
    · exact this
    · simp only [List.mem_append, List.mem_singleton, this]
      simp

theorem afterErrors_didntHappen (expected : List (Nat × String)) (errors : List BasicError)
    (st : CheckState) (line : Nat) :
    (Failure.expectedDidntHappen line ∈ (errors.foldl (checkError expected) st).failures ↔
      Failure.expectedDidntHappen line ∈ st.failures) := by
  induction errors generalizing st with
  | nil => simp
  | cons e rest ih =>
    simp only [List.foldl_cons]
    rw [ih, checkError_didntHappen]

theorem string_mk_eq_iff (t : List Char) (text : String) :
    String.mk t = text ↔ t = text.toList := by
  constructor
  · rintro rfl
    rfl
  · intro h
    rw [h]
    rfl

/-- The expected text found for a line is the text the line is annotated with. -/
theorem findExpected_iff_annotated (src : String) (line : Nat) (text : String) :
    findExpected (expectedErrors src) line = some text ↔ AnnotatedWith src line text := by
  rw [findExpected_expectedErrors]
  unfold AnnotatedWith
  by_cases h1 : line < 1
  · simp only [h1, if_true]
    constructor
    · intro h
      exact Option.noConfusion h
    · rintro ⟨h, -⟩
      omega
  · simp only [h1, if_false]
    have h1' : 1 ≤ line := by omega
    cases hl : (getlines [] src.toList)[line - 1]? with
    | none => simp
    | some l =>
      cases hr : errorRegex l with
      | none => simp [hr]
      | some t =>
        simp only [Option.some_bind, hr, Option.map_some', Option.some.injEq, h1', true_and,
          exists_eq_left']
        exact string_mk_eq_iff t text

/-- The entries of `expectedErrors` are the annotated lines. -/
theorem mem_collectExpected (lines : List (List Char)) :
    ∀ (k line : Nat) (text : String), (line, text) ∈ collectExpected k lines ↔
      k ≤ line ∧ ∃ l, lines[line - k]? = some l ∧ errorRegex l = some text.toList := by
  induction lines with
  | nil =>
    intro k line text
    simp [collectExpected]
  | cons l0 rest ih =>
    intro k line text
    have hih := ih (k + 1) line text
    have hstep : (line, text) ∈ collectExpected k (l0 :: rest) ↔
        (line = k ∧ errorRegex l0 = some text.toList) ∨
          (line, text) ∈ collectExpected (k + 1) rest := by
      cases hr : errorRegex l0 with
      | none => simp [collectExpected, hr]
      | some t =>
        simp only [collectExpected, hr, List.mem_cons, Prod.mk.injEq, Option.some.injEq]
        rw [eq_comm (a := text), string_mk_eq_iff]
    rw [hstep, hih]
    constructor
    · rintro (⟨rfl, h⟩ | ⟨h1, l, h2, h3⟩)
      · exact ⟨le_refl _, l0, by simp, h⟩
      · refine ⟨by omega, l, ?_, h3⟩
        have hidx : line - k = (line - (k + 1)) + 1 := by omega
        rw [hidx, List.getElem?_cons_succ]
        exact h2
    · rintro ⟨h1, l, h2, h3⟩
      by_cases hk : line = k
      · subst hk
        simp only [Nat.sub_self, List.getElem?_cons_zero, Option.some.injEq] at h2
        rw [← h2] at h3
        exact Or.inl ⟨rfl, h3⟩
      · have hidx : line - k = (line - (k + 1)) + 1 := by omega
        rw [hidx, List.getElem?_cons_succ] at h2
        exact Or.inr ⟨by omega, l, h2, h3⟩

theorem mem_expectedErrors (src : String) (line : Nat) (text : String) :
    (line, text) ∈ expectedErrors src ↔ AnnotatedWith src line text :=
  mem_collectExpected _ 1 line text

theorem checkUnknownLoc_seen (expected : List (Nat × String)) (st : CheckState)
    (error : BasicError) (j : Nat) :
    (j ∈ (checkUnknownLoc expected st error).seenErrorLines ↔
      j ∈ st.seenErrorLines ∨
        (j = st.unknownLocErrorLine ∧
          ∃ text, findExpected expected st.unknownLocErrorLine = some text ∧
            text.toList <:+: error.formatted.toList)) := by
  cases h : findExpected expected st.unknownLocErrorLine with
  | none => simp [checkUnknownLoc, h]
  | some text =>
    cases hc : containsText error.formatted text with
    | false =>
      have hn : ¬ text.toList <:+: error.formatted.toList := fun h0 => by
        rw [(containsText_iff _ _).mpr h0] at hc
        exact Bool.noConfusion hc
      simp only [checkUnknownLoc, h, hc, Bool.not_false, if_true, Option.some.injEq,
        exists_eq_left']
      exact ⟨Or.inl, fun h0 => h0.resolve_right (fun h1 => hn h1.2)⟩
    | true =>
      have hy := (containsText_iff _ _).mp hc
      simp only [checkUnknownLoc, h, hc, Bool.not_true, Bool.false_eq_true, if_false,
        Option.some.injEq, exists_eq_left']
      show j ∈ List.insert st.unknownLocErrorLine st.seenErrorLines ↔ _
      rw [List.mem_insert_iff]
      constructor
      · rintro (h0 | h0)
        · exact Or.inr ⟨h0, hy⟩
        · exact Or.inl h0
      · rintro (h0 | ⟨h0, -⟩)
        · exact Or.inr h0
        · exact Or.inl h0

theorem checkUnknownLoc_line (expected : List (Nat × String)) (st : CheckState)
    (error : BasicError) :
    (checkUnknownLoc expected st error).unknownLocErrorLine = st.unknownLocErrorLine + 1 := by
  cases h : findExpected expected st.unknownLocErrorLine with
  | none => simp [checkUnknownLoc, h]
  | some text => cases hc : containsText error.formatted text <;> simp [checkUnknownLoc, h, hc]

theorem checkLocated_line (expected : List (Nat × String)) (st : CheckState)
    (error : BasicError) (pos : Detail × Detail) :
    (checkLocated expected st error pos).unknownLocErrorLine = st.unknownLocErrorLine := rfl

/-- The seen set after the loop over the errors: a line is in it exactly when it was
there before, or an error with a location matched it, or the error without location
whose turn was that of the line matched it. -/
theorem foldl_checkError_seen (expected : List (Nat × String)) (errors : List BasicError) :
    ∀ (st : CheckState) (j : Nat),
      (j ∈ (errors.foldl (checkError expected) st).seenErrorLines ↔
        j ∈ st.seenErrorLines ∨
        (∃ e ∈ errors, ∃ pos, e.loc = some pos ∧ j ∈ lineRange pos ∧ MatchedAt expected e j) ∨
        (st.unknownLocErrorLine ≤ j ∧ ∃ e text,
          (errors.filter (fun e => e.loc.isNone))[j - st.unknownLocErrorLine]? = some e ∧
          findExpected expected j = some text ∧ text.toList <:+: e.formatted.toList)) := by
  induction errors with
  | nil =>
    intro st j
    simp
  | cons e rest ih =>
    intro st j
    simp only [List.foldl_cons]
    rw [ih]
    cases hloc : e.loc with
    | none =>
      have hf : (e :: rest).filter (fun e => e.loc.isNone) =
          e :: rest.filter (fun e => e.loc.isNone) := by
        simp [List.filter_cons, hloc]
      have hce : checkError expected st e = checkUnknownLoc expected st e := by
        simp only [checkError, hloc]
      rw [hf, hce, checkUnknownLoc_seen, checkUnknownLoc_line]
      constructor
      · rintro ((h | ⟨rfl, text, h1, h2⟩) | ⟨e1, he1, h⟩ | ⟨h1, e1, text, h2, h3⟩)
        · exact Or.inl h
        · exact Or.inr (Or.inr ⟨le_refl _, e, text, by simp, h1, h2⟩)
        · exact Or.inr (Or.inl ⟨e1, List.mem_cons_of_mem _ he1, h⟩)
        · refine Or.inr (Or.inr ⟨by omega, e1, text, ?_, h3⟩)
          have hidx : j - st.unknownLocErrorLine = (j - (st.unknownLocErrorLine + 1)) + 1 := by
            omega
          rw [hidx, List.getElem?_cons_succ]
          exact h2
      · rintro (h | ⟨e1, he1, pos, hp, h⟩ | ⟨h1, e1, text, h2, h3⟩)
        · exact Or.inl (Or.inl h)
        · rcases List.mem_cons.mp he1 with rfl | he1
          · rw [hloc] at hp
            exact Option.noConfusion hp
          · exact Or.inr (Or.inl ⟨e1, he1, pos, hp, h⟩)
        · by_cases hj : j = st.unknownLocErrorLine
          · subst hj
            simp only [Nat.sub_self, List.getElem?_cons_zero, Option.some.injEq] at h2
            rw [← h2] at h3
            exact Or.inl (Or.inr ⟨rfl, text, h3⟩)
          · have hidx : j - st.unknownLocErrorLine =
                (j - (st.unknownLocErrorLine + 1)) + 1 := by omega
            rw [hidx, List.getElem?_cons_succ] at h2
            exact Or.inr (Or.inr ⟨by omega, e1, text, h2, h3⟩)
    | some pos =>
      have hf : (e :: rest).filter (fun e => e.loc.isNone) =
          rest.filter (fun e => e.loc.isNone) := by
        simp [List.filter_cons, hloc]
      have hce : checkError expected st e = checkLocated expected st e pos := by
        simp only [checkError, hloc]
      rw [hf, hce, checkLocated_seen, checkLocated_line]
      constructor
      · rintro ((h | h) | ⟨e1, he1, h⟩ | h)
        · exact Or.inl h
        · exact Or.inr (Or.inl ⟨e, List.mem_cons_self _ _, pos, hloc, h.1, h.2⟩)
        · exact Or.inr (Or.inl ⟨e1, List.mem_cons_of_mem _ he1, h⟩)
        · exact Or.inr (Or.inr h)
      · rintro (h | ⟨e1, he1, pos1, hp, h⟩ | h)
        · exact Or.inl (Or.inl h)
        · rcases List.mem_cons.mp he1 with rfl | he1
          · rw [hloc] at hp
            cases hp
            exact Or.inl (Or.inr h)
          · exact Or.inr (Or.inl ⟨e1, he1, pos1, hp, h⟩)
        · exact Or.inr (Or.inr h)

/-- C6, amended. When at least one error is reported, `PerPhaseTest` records "Expected
error didn't happen on line N" exactly for the lines of the source that carry an expected
error and to which no reported error is matched. An error with a location is matched to a
line of its range whose expected text is not empty and occurs in its message; the `k`-th
error without location is matched to line `k` when the expected text of that line occurs
in its message. When no error is reported the whole check is skipped and no failure is
recorded, whatever the source says. -/
theorem expected_errors_checked_when_errors_reported (src : String)
    (errors : List BasicError) (line : Nat) (hne : errors ≠ []) :
    (Failure.expectedDidntHappen line ∈ PerPhaseTest src errors ↔
      (∃ text, AnnotatedWith src line text) ∧
      (¬ ∃ e ∈ errors, ∃ pos, e.loc = some pos ∧ pos.1.line ≤ line ∧ line ≤ pos.2.line ∧
          ∃ text, AnnotatedWith src line text ∧ text ≠ "" ∧
            text.toList <:+: e.formatted.toList) ∧
      (¬ ∃ e text, (errors.filter (fun e => e.loc.isNone))[line - 1]? = some e ∧
          AnnotatedWith src line text ∧ text.toList <:+: e.formatted.toList)) ∧
    PerPhaseTest src [] = [] := by
  have hlen : errors.length > 0 := List.length_pos.mpr hne
  refine ⟨?_, by simp [PerPhaseTest]⟩
  simp only [PerPhaseTest, hlen, if_true, List.mem_append, mem_missedExpected]
  have hfail := afterErrors_didntHappen (expectedErrors src) errors
    { failures := [], seenErrorLines := [], unknownLocErrorLine := 1 } line
  simp only [List.not_mem_nil, iff_false] at hfail
  have hseen := foldl_checkError_seen (expectedErrors src) errors
    { failures := [], seenErrorLines := [], unknownLocErrorLine := 1 } line
  simp only [List.not_mem_nil, false_or] at hseen
  have hann : (∃ text, (line, text) ∈ expectedErrors src) ↔ ∃ text, AnnotatedWith src line text :=
    exists_congr (fun text => mem_expectedErrors src line text)
  have hloc : (∃ e ∈ errors, ∃ pos, e.loc = some pos ∧ line ∈ lineRange pos ∧
        MatchedAt (expectedErrors src) e line) ↔
      ∃ e ∈ errors, ∃ pos, e.loc = some pos ∧ pos.1.line ≤ line ∧ line ≤ pos.2.line ∧
        ∃ text, AnnotatedWith src line text ∧ text ≠ "" ∧
          text.toList <:+: e.formatted.toList := by
    constructor
    · rintro ⟨e, he, pos, hp, hr, text, h1, h2, h3⟩
      obtain ⟨r1, r2⟩ := (mem_lineRange pos line).mp hr
      exact ⟨e, he, pos, hp, r1, r2, text, (findExpected_iff_annotated src line text).mp h1, h2, h3⟩
    · rintro ⟨e, he, pos, hp, r1, r2, text, h1, h2, h3⟩
      exact ⟨e, he, pos, hp, (mem_lineRange pos line).mpr ⟨r1, r2⟩, text,
        (findExpected_iff_annotated src line text).mpr h1, h2, h3⟩
  have hunk : (1 ≤ line ∧ ∃ e text,
        (errors.filter (fun e => e.loc.isNone))[line - 1]? = some e ∧
        findExpected (expectedErrors src) line = some text ∧
        text.toList <:+: e.formatted.toList) ↔
      ∃ e text, (errors.filter (fun e => e.loc.isNone))[line - 1]? = some e ∧
        AnnotatedWith src line text ∧ text.toList <:+: e.formatted.toList := by
    constructor
    · rintro ⟨-, e, text, h1, h2, h3⟩
      exact ⟨e, text, h1, (findExpected_iff_annotated src line text).mp h2, h3⟩
    · rintro ⟨e, text, h1, h2, h3⟩
      exact ⟨h2.1, e, text, h1, (findExpected_iff_annotated src line text).mpr h2, h3⟩
  unfold afterErrors
  rw [hseen, hann, hloc, hunk, not_or]
  constructor
  · rintro (h | h)
    · exact absurd h hfail
    · exact h
  · exact Or.inr

/-- Witness of C6: the expected error of line 1 is not matched by the error reported on
line 2, and the failure for line 1 is recorded. -/
theorem expected_errors_checked_when_errors_reported_witness :
    PerPhaseTest "foo # error: bar\nbaz\n" [{ loc := some (⟨2, 1⟩, ⟨2, 4⟩), formatted := "bar" }] =
      [Failure.unexpectedError { loc := some (⟨2, 1⟩, ⟨2, 4⟩), formatted := "bar" },
       Failure.expectedDidntHappen 1] ∧
    (Failure.expectedDidntHappen 1 ∈
        PerPhaseTest "foo # error: bar\nbaz\n"
          [{ loc := some (⟨2, 1⟩, ⟨2, 4⟩), formatted := "bar" }] ↔
      (∃ text, AnnotatedWith "foo # error: bar\nbaz\n" 1 text) ∧
      (¬ ∃ e ∈ [({ loc := some (⟨2, 1⟩, ⟨2, 4⟩), formatted := "bar" } : BasicError)],
          ∃ pos, e.loc = some pos ∧ pos.1.line ≤ 1 ∧ 1 ≤ pos.2.line ∧
          ∃ text, AnnotatedWith "foo # error: bar\nbaz\n" 1 text ∧ text ≠ "" ∧
            text.toList <:+: e.formatted.toList) ∧
      (¬ ∃ e text,
          ([({ loc := some (⟨2, 1⟩, ⟨2, 4⟩), formatted := "bar" } : BasicError)].filter
            (fun e => e.loc.isNone))[1 - 1]? = some e ∧
          AnnotatedWith "foo # error: bar\nbaz\n" 1 text ∧
          text.toList <:+: e.formatted.toList)) :=
  ⟨by decide,
   (expected_errors_checked_when_errors_reported "foo # error: bar\nbaz\n"
      [{ loc := some (⟨2, 1⟩, ⟨2, 4⟩), formatted := "bar" }] 1 (by simp)).1⟩

/-- Counterexample to C6 as stated: on the source `foo # error: bar` with no reported
error, line 1 carries an expected error and no error is matched to it, yet no failure is
recorded. -/
theorem expected_error_unchecked_without_errors :
    expectedErrors "foo # error: bar\n" = [(1, "bar")] ∧
    AnnotatedWith "foo # error: bar\n" 1 "bar" ∧
    (afterErrors (expectedErrors "foo # error: bar\n") []).seenErrorLines = [] ∧
    PerPhaseTest "foo # error: bar\n" [] = [] ∧
    ¬ (∀ (src : String) (errors : List BasicError) (line : Nat) (text : String),
        (line, text) ∈ expectedErrors src →
        line ∉ (afterErrors (expectedErrors src) errors).seenErrorLines →
        Failure.expectedDidntHappen line ∈ PerPhaseTest src errors) ∧
    ¬ (∀ (src : String) (errors : List BasicError) (line : Nat),
        (∃ text, AnnotatedWith src line text) →
        (¬ ∃ e ∈ errors, ∃ pos, e.loc = some pos ∧ pos.1.line ≤ line ∧ line ≤ pos.2.line ∧
          ∃ text, AnnotatedWith src line text ∧ text ≠ "" ∧
            text.toList <:+: e.formatted.toList) →
        (¬ ∃ e text, (errors.filter (fun e => e.loc.isNone))[line - 1]? = some e ∧
          AnnotatedWith src line text ∧ text.toList <:+: e.formatted.toList) →
        Failure.expectedDidntHappen line ∈ PerPhaseTest src errors) := by
  have hann : AnnotatedWith "foo # error: bar\n" 1 "bar" :=
    (mem_expectedErrors _ 1 "bar").mp (by decide)
  refine ⟨by decide, hann, by decide, by decide, ?_, ?_⟩
  · intro h
    have := h "foo # error: bar\n" [] 1 "bar" (by decide) (by decide)
    exact absurd this (by decide)
  · intro h
    have := h "foo # error: bar\n" [] 1 ⟨"bar", hann⟩ (by simp) (by simp)
    exact absurd this (by decide)

end test

/-! ## Theorems on the resolver passes -/

namespace resolver

open ResolutionState

/-! ### `dedupKeepFirst` -/

theorem mem_dedupKeepFirst (l : List SymbolRef) (x : SymbolRef) :
    x ∈ dedupKeepFirst l ↔ x ∈ l := by
  induction l with
  | nil => simp [dedupKeepFirst]
  | cons a l ih =>
    simp only [dedupKeepFirst, List.mem_cons, List.mem_filter, ih, decide_eq_true_eq]
    constructor
    · rintro (h | ⟨h, -⟩)
      · exact Or.inl h
      · exact Or.inr h
    · rintro (h | h)
      · exact Or.inl h
      · by_cases hx : x = a
        · exact Or.inl hx
        · exact Or.inr ⟨h, hx⟩

theorem nodup_dedupKeepFirst (l : List SymbolRef) : (dedupKeepFirst l).Nodup := by
  induction l with
  | nil => simp [dedupKeepFirst]
  | cons a l ih =>
    simp only [dedupKeepFirst, List.nodup_cons, List.mem_filter, decide_eq_true_eq]
    exact ⟨fun h => h.2 rfl, ih.filter _⟩

/-- Keep-first semantics: the list up to the first occurrence of an element decides what
precedes that element in the result. -/
theorem dedupKeepFirst_append (l1 l2 : List SymbolRef) :
    dedupKeepFirst (l1 ++ l2) =
      dedupKeepFirst l1 ++ (dedupKeepFirst l2).filter (fun y => y ∉ l1) := by
  induction l1 with
  | nil => simp [dedupKeepFirst]
  | cons a l ih =>
    show dedupKeepFirst (a :: (l ++ l2)) = _
    simp only [dedupKeepFirst]
    rw [ih, List.filter_append, List.filter_filter, List.cons_append]
    congr 2
    apply List.filter_congr
    intro x _
    by_cases h1 : x = a <;> by_cases h2 : x ∈ l <;> simp [h1, h2]

theorem dedupKeepFirst_of_nodup (l : List SymbolRef) (h : l.Nodup) : dedupKeepFirst l = l := by
  induction l with
  | nil => rfl
  | cons a l ih =>
    obtain ⟨ha, hl⟩ := List.nodup_cons.mp h
    simp only [dedupKeepFirst, ih hl, List.cons.injEq, true_and]
    apply List.filter_eq_self.mpr
    intro x hx
    simp only [ne_eq, decide_not, Bool.not_eq_true', decide_eq_false_iff_not]
    rintro rfl
    exact ha hx

/-! ### The parents of a symbol -/

theorem parents_of_some (tbl : SymbolTable) (c : SymbolRef) (sym : Symbol)
    (h : tbl[c]? = some sym) :
    parents tbl c = (prepends sym).reverse ++ ((includes sym).reverse ++ sym.superclass.toList) := by
  simp [parents, h]

theorem parents_of_none (tbl : SymbolTable) (c : SymbolRef) (h : tbl[c]? = none) :
    parents tbl c = [] := by
  simp [parents, h]

theorem lt_length_of_some (tbl : SymbolTable) (c : SymbolRef) (sym : Symbol)
    (h : tbl[c]? = some sym) : c < tbl.length := by
  by_contra hc
  rw [List.getElem?_eq_none (Nat.le_of_not_lt hc)] at h
  exact Option.noConfusion h

theorem lt_length_of_mem_parents (tbl : SymbolTable) (c y : SymbolRef)
    (h : y ∈ parents tbl c) : c < tbl.length := by
  cases hs : tbl[c]? with
  | none => rw [parents_of_none tbl c hs] at h; exact absurd h (List.not_mem_nil _)
  | some sym => exact lt_length_of_some tbl c sym hs

theorem composed_congr (tbl : SymbolTable) (anc anc1 : SymbolRef → List SymbolRef)
    (c : SymbolRef) (h : ∀ y ∈ parents tbl c, anc1 y = anc y) :
    composed tbl anc1 c = composed tbl anc c := by
  unfold composed
  cases hs : tbl[c]? with
  | none => rfl
  | some sym =>
    rw [parents_of_some tbl c sym hs] at h
    have h1 : (prepends sym).reverse.flatMap anc1 = (prepends sym).reverse.flatMap anc := by
      apply List.flatMap_congr
      intro y hy
      exact h y (List.mem_append_left _ hy)
    have h2 : ((includes sym).reverse ++ sym.superclass.toList).flatMap anc1 =
        ((includes sym).reverse ++ sym.superclass.toList).flatMap anc := by
      apply List.flatMap_congr
      intro y hy
      exact h y (List.mem_append_right _ hy)
    simp only [h1, h2]

theorem mem_composed (tbl : SymbolTable) (anc : SymbolRef → List SymbolRef) (c y : SymbolRef)
    (h : y ∈ composed tbl anc c) : y = c ∨ ∃ m ∈ parents tbl c, y ∈ anc m := by
  unfold composed at h
  cases hs : tbl[c]? with
  | none => rw [hs] at h; exact absurd h (List.not_mem_nil _)
  | some sym =>
    rw [hs] at h
    rw [parents_of_some tbl c sym hs]
    simp only [List.mem_append, List.mem_flatMap, List.mem_singleton] at h
    rcases h with ⟨m, hm, hy⟩ | h | ⟨m, hm, hy⟩
    · exact Or.inr ⟨m, List.mem_append_left _ hm, hy⟩
    · exact Or.inl h
    · exact Or.inr ⟨m, List.mem_append_right _ (List.mem_append.mpr hm), hy⟩

theorem self_mem_composed (tbl : SymbolTable) (anc : SymbolRef → List SymbolRef) (c : SymbolRef)
    (sym : Symbol) (h : tbl[c]? = some sym) : c ∈ composed tbl anc c := by
  simp [composed, h]

theorem mem_composed_of_parent (tbl : SymbolTable) (anc : SymbolRef → List SymbolRef)
    (c m y : SymbolRef) (hm : m ∈ parents tbl c) (hy : y ∈ anc m) : y ∈ composed tbl anc c := by
  cases hs : tbl[c]? with
  | none => rw [parents_of_none tbl c hs] at hm; exact absurd hm (List.not_mem_nil _)
  | some sym =>
    rw [parents_of_some tbl c sym hs] at hm
    simp only [composed, hs, List.mem_append, List.mem_flatMap, List.mem_singleton]
    rcases List.mem_append.mp hm with h | h
    · exact Or.inl ⟨m, h, hy⟩
    · exact Or.inr (Or.inr ⟨m, List.mem_append.mp h, hy⟩)

/-! ### States -/

theorem state_cases (s : ResolutionState) :
    s = Unresolved ∨ s = InProgress ∨ s = Resolved ∨ s = Error := by
  cases s <;> simp

theorem Ext.refl (st : LinState) : Ext st st :=
  ⟨fun _ _ => ⟨rfl, rfl⟩, fun _ h => Or.inl h, fun _ h => h, fun _ h => h⟩

theorem Ext.trans {st st1 st2 : LinState} (h1 : Ext st st1) (h2 : Ext st1 st2) : Ext st st2 := by
  refine ⟨?_, ?_, ?_, ?_⟩
  · intro x hx
    obtain ⟨a, b⟩ := h1.terminal x hx
    have hx1 : Terminal st1 x := by
      unfold Terminal at hx ⊢
      rw [a]
      exact hx
    obtain ⟨c, d⟩ := h2.terminal x hx1
    exact ⟨c.trans a, d.trans b⟩
  · intro x hx
    rcases h1.progress x hx with h | h
    · exact h2.progress x h
    · exact Or.inr ((h2.terminal x (Or.inr h)).1.trans h)
  · intro x hx
    exact h1.noNew x (h2.noNew x hx)
  · intro x hx
    exact h2.errors x (h1.errors x hx)

theorem Ext.unresolved_of {st st1 : LinState} (h : Ext st st1) (x : SymbolRef)
    (hx : st1.state x = Unresolved) : st.state x = Unresolved := by
  rcases state_cases (st.state x) with h0 | h0 | h0 | h0
  · exact h0
  · rcases h.progress x h0 with h1 | h1 <;> rw [hx] at h1 <;> exact absurd h1 (by decide)
  · have := (h.terminal x (Or.inl h0)).1
    rw [hx, h0] at this
    exact absurd this (by decide)
  · have := (h.terminal x (Or.inr h0)).1
    rw [hx, h0] at this
    exact absurd this (by decide)

theorem Ext.terminal_of {st st1 : LinState} (h : Ext st st1) (x : SymbolRef)
    (hx : Terminal st x) : Terminal st1 x := by
  unfold Terminal at hx ⊢
  rw [(h.terminal x hx).1]
  exact hx

theorem filter_length_le_of_imp (p q : SymbolRef → Bool) (l : List SymbolRef)
    (h : ∀ x, p x = true → q x = true) : (l.filter p).length ≤ (l.filter q).length := by
  induction l with
  | nil => simp
  | cons a l ih =>
    simp only [List.filter_cons]
    by_cases hp : p a = true
    · simp only [hp, h a hp, if_true, List.length_cons]
      omega
    · by_cases hq : q a = true
      · simp only [hp, hq, if_true, List.length_cons]
        simp only [Bool.false_eq_true, if_false]
        omega
      · simp only [hp, hq]
        simpa using ih

theorem filter_length_lt_of_imp (p q : SymbolRef → Bool) (l : List SymbolRef) (c : SymbolRef)
    (h : ∀ x, p x = true → q x = true) (hc : c ∈ l) (hq : q c = true) (hp : ¬ p c = true) :
    (l.filter p).length < (l.filter q).length := by
  induction l with
  | nil => exact absurd hc (List.not_mem_nil _)
  | cons a l ih =>
    simp only [List.filter_cons]
    rcases List.mem_cons.mp hc with rfl | hc1
    · have := filter_length_le_of_imp p q l h
      simp only [hp, hq, if_true, List.length_cons]
      simp only [Bool.false_eq_true, if_false]
      omega
    · have := ih hc1
      by_cases hpa : p a = true
      · simp only [hpa, h a hpa, if_true, List.length_cons]
        omega
      · by_cases hqa : q a = true
        · simp only [hpa, hqa, if_true, List.length_cons]
          simp only [Bool.false_eq_true, if_false]
          omega
        · simp only [hpa, hqa]
          simpa using this

theorem unresolvedCount_le_of_ext (tbl : SymbolTable) {st st1 : LinState} (h : Ext st st1) :
    unresolvedCount tbl st1 ≤ unresolvedCount tbl st := by
  unfold unresolvedCount
  apply filter_length_le_of_imp
  intro x hx
  simp only [decide_eq_true_eq] at hx ⊢
  exact h.unresolved_of x hx

theorem unresolvedCount_le_length (tbl : SymbolTable) (st : LinState) :
    unresolvedCount tbl st ≤ tbl.length := by
  unfold unresolvedCount
  exact le_trans (List.length_filter_le _ _) (by simp)

theorem unresolvedCount_mark (tbl : SymbolTable) (st : LinState) (c : SymbolRef)
    (hc : c < tbl.length) (hs : st.state c = Unresolved) :
    unresolvedCount tbl (markInProgress st c) < unresolvedCount tbl st := by
  unfold unresolvedCount
  apply filter_length_lt_of_imp _ _ _ c
  · intro x hx
    simp only [markInProgress, decide_eq_true_eq] at hx ⊢
    by_cases hxc : x = c
    · simp [hxc] at hx
    · simpa [hxc] using hx
  · exact List.mem_range.mpr hc
  · simpa using hs
  · simp [markInProgress]

theorem inv_mark (tbl : SymbolTable) (S : SymbolRef → Prop) (st : LinState) (c : SymbolRef)
    (h : Inv tbl S st) (hs : st.state c = Unresolved) (hc : c < tbl.length) :
    Inv tbl S (markInProgress st c) := by
  have key : ∀ x s, s ≠ InProgress → (markInProgress st c).state x = s → st.state x = s ∧ x ≠ c := by
    intro x s hne hx
    by_cases hxc : x = c
    · subst hxc
      simp only [markInProgress, if_true] at hx
      exact absurd hx.symm hne
    · simp only [markInProgress, hxc, if_false] at hx
      exact ⟨hx, hxc⟩
  refine ⟨?_, ?_, ?_, ?_, ?_, ?_, ?_, ?_, ?_, ?_⟩
  · intro x hx
    exact h.unresolved x (key x _ (by decide) hx).1
  · intro x hx
    exact h.error x (key x _ (by decide) hx).1
  · intro x hx
    have h1 := h.reported x hx
    have hxc : x ≠ c := by
      rintro rfl
      rw [hs] at h1
      exact absurd h1 (by decide)
    simpa [markInProgress, hxc] using h1
  · intro x hx
    exact h.resolved x (key x _ (by decide) hx).1
  · exact h.reach
  · intro x hx
    by_cases hxc : x = c
    · rw [hxc]; exact hc
    · apply h.inTable
      simpa [markInProgress, hxc] using hx
  · intro x hSx hx
    exact h.good x hSx (key x _ (by decide) hx).1
  · intro x hx
    obtain ⟨h1, h2⟩ := h.equation x (key x _ (by decide) hx).1
    refine ⟨?_, h2⟩
    intro y hy hyn
    have ht := h1 y hy hyn
    have hyc : y ≠ c := by
      rintro rfl
      unfold Terminal at ht
      rw [hs] at ht
      rcases ht with ht | ht <;> exact absurd ht (by decide)
    unfold Terminal at ht ⊢
    simpa [markInProgress, hyc] using ht
  · intro x hx hr
    exact h.selfLoop x hx (key x _ (by decide) hr).1
  · obtain ⟨t, ht⟩ := h.ordered
    exact ⟨t, fun x hx y hy hyr =>
      ht x (key x _ (by decide) hx).1 y hy (key y _ (by decide) hyr).1⟩

theorem inv_reportCycle (tbl : SymbolTable) (S : SymbolRef → Prop) (st : LinState)
    (c : SymbolRef) (h : Inv tbl S st) (hs : st.state c = InProgress) (hS : ¬ S c) :
    Inv tbl S (reportCycle st c) := by
  have key : ∀ x s, s ≠ Error → (reportCycle st c).state x = s → st.state x = s ∧ x ≠ c := by
    intro x s hne hx
    by_cases hxc : x = c
    · subst hxc
      simp only [reportCycle, if_true] at hx
      exact absurd hx.symm hne
    · simp only [reportCycle, hxc, if_false] at hx
      exact ⟨hx, hxc⟩
  have anc : ∀ x, x ≠ c → (reportCycle st c).ancestors x = st.ancestors x := by
    intro x hxc
    simp [reportCycle, hxc]
  refine ⟨?_, ?_, ?_, ?_, ?_, ?_, ?_, ?_, ?_, ?_⟩
  · intro x hx
    obtain ⟨h1, h2⟩ := key x _ (by decide) hx
    rw [anc x h2]
    exact h.unresolved x h1
  · intro x hx
    by_cases hxc : x = c
    · subst hxc
      simp [reportCycle]
    · simp only [reportCycle, hxc, if_false] at hx
      obtain ⟨h1, h2⟩ := h.error x hx
      rw [anc x hxc]
      exact ⟨h1, by simp [reportCycle, h2]⟩
  · intro x hx
    by_cases hxc : x = c
    · subst hxc
      simp [reportCycle]
    · simp only [reportCycle, List.mem_append, List.mem_singleton, hxc, or_false] at hx
      simpa [reportCycle, hxc] using h.reported x hx
  · intro x hx
    obtain ⟨h1, h2⟩ := key x _ (by decide) hx
    rw [anc x h2]
    exact h.resolved x h1
  · intro x y hy
    by_cases hxc : x = c
    · subst hxc
      simp only [reportCycle, if_true, List.mem_singleton] at hy
      rw [hy]
      exact Relation.ReflTransGen.refl
    · rw [anc x hxc] at hy
      exact h.reach x y hy
  · intro x hx
    by_cases hxc : x = c
    · rw [hxc]
      apply h.inTable
      rw [hs]
      decide
    · apply h.inTable
      simpa [reportCycle, hxc] using hx
  · intro x hSx hx
    by_cases hxc : x = c
    · subst hxc
      exact hS hSx
    · apply h.good x hSx
      simpa [reportCycle, hxc] using hx
  · intro x hx
    obtain ⟨hx1, hxc⟩ := key x _ (by decide) hx
    obtain ⟨h1, h2⟩ := h.equation x hx1
    have hpar : ∀ y ∈ parents tbl x, y ≠ c := by
      intro y hy hyc
      subst hyc
      have ht := h1 y hy (h.inTable y (by rw [hs]; decide))
      unfold Terminal at ht
      rw [hs] at ht
      rcases ht with ht | ht <;> exact absurd ht (by decide)
    refine ⟨?_, ?_⟩
    · intro y hy hyn
      have ht := h1 y hy hyn
      have hyc := hpar y hy
      unfold Terminal at ht ⊢
      simpa [reportCycle, hyc] using ht
    · rw [anc x hxc, h2]
      congr 1
      exact (composed_congr tbl _ _ x (fun y hy => anc y (hpar y hy))).symm
  · intro x hx hr
    exact h.selfLoop x hx (key x _ (by decide) hr).1
  · obtain ⟨t, ht⟩ := h.ordered
    exact ⟨t, fun x hx y hy hyr =>
      ht x (key x _ (by decide) hx).1 y hy (key y _ (by decide) hyr).1⟩

theorem ext_reportCycle (st : LinState) (c : SymbolRef) (hs : st.state c = InProgress) :
    Ext st (reportCycle st c) := by
  refine ⟨?_, ?_, ?_, ?_⟩
  · intro x hx
    have hxc : x ≠ c := by
      rintro rfl
      unfold Terminal at hx
      rw [hs] at hx
      rcases hx with hx | hx <;> exact absurd hx (by decide)
    simp [reportCycle, hxc]
  · intro x hx
    by_cases hxc : x = c
    · exact Or.inr (by simp [reportCycle, hxc])
    · exact Or.inl (by simpa [reportCycle, hxc] using hx)
  · intro x hx
    by_cases hxc : x = c
    · simp [reportCycle, hxc] at hx
    · simpa [reportCycle, hxc] using hx
  · intro x hx
    simp [reportCycle, hx]

theorem inv_store (tbl : SymbolTable) (S : SymbolRef → Prop) (st : LinState) (c : SymbolRef)
    (l : List SymbolRef) (h : Inv tbl S st) (hs : st.state c = InProgress)
    (hself : c ∉ parents tbl c)
    (hpar : ∀ y ∈ parents tbl c, y < tbl.length → Terminal st y)
    (hsym : tbl[c]?.isSome)
    (hl : l = dedupKeepFirst (composed tbl st.ancestors c)) :
    Inv tbl S (store st c l) := by
  have key : ∀ x s, s ≠ Resolved → (store st c l).state x = s → st.state x = s ∧ x ≠ c := by
    intro x s hne hx
    by_cases hxc : x = c
    · subst hxc
      simp only [store, if_true] at hx
      exact absurd hx.symm hne
    · simp only [store, hxc, if_false] at hx
      exact ⟨hx, hxc⟩
  have anc : ∀ x, x ≠ c → (store st c l).ancestors x = st.ancestors x := by
    intro x hxc
    simp [store, hxc]
  have ancc : (store st c l).ancestors c = l := by simp [store]
  have term : ∀ y, Terminal st y → Terminal (store st c l) y := by
    intro y ht
    have hyc : y ≠ c := by
      rintro rfl
      unfold Terminal at ht
      rw [hs] at ht
      rcases ht with ht | ht <;> exact absurd ht (by decide)
    unfold Terminal at ht ⊢
    simpa [store, hyc] using ht
  obtain ⟨sym, hsym⟩ := Option.isSome_iff_exists.mp hsym
  refine ⟨?_, ?_, ?_, ?_, ?_, ?_, ?_, ?_, ?_, ?_⟩
  · intro x hx
    obtain ⟨h1, h2⟩ := key x _ (by decide) hx
    rw [anc x h2]
    exact h.unresolved x h1
  · intro x hx
    obtain ⟨h1, h2⟩ := key x _ (by decide) hx
    rw [anc x h2]
    exact h.error x h1
  · intro x hx
    have h1 := h.reported x hx
    have hxc : x ≠ c := by
      rintro rfl
      rw [hs] at h1
      exact absurd h1 (by decide)
    simpa [store, hxc] using h1
  · intro x hx
    by_cases hxc : x = c
    · subst hxc
      rw [ancc, hl]
      exact ⟨nodup_dedupKeepFirst _,
        (mem_dedupKeepFirst _ _).mpr (self_mem_composed tbl _ x sym hsym)⟩
    · rw [anc x hxc]
      apply h.resolved
      simpa [store, hxc] using hx
  · intro x y hy
    by_cases hxc : x = c
    · subst hxc
      rw [ancc, hl, mem_dedupKeepFirst] at hy
      rcases mem_composed tbl _ x y hy with rfl | ⟨m, hm, hy⟩
      · exact Relation.ReflTransGen.refl
      · exact Relation.ReflTransGen.head hm (h.reach m y hy)
    · rw [anc x hxc] at hy
      exact h.reach x y hy
  · intro x hx
    by_cases hxc : x = c
    · rw [hxc]
      exact lt_length_of_some tbl c sym hsym
    · apply h.inTable
      simpa [store, hxc] using hx
  · intro x hSx hx
    exact h.good x hSx (key x _ (by decide) hx).1
  · intro x hx
    by_cases hxc : x = c
    · subst hxc
      refine ⟨fun y hy hyn => term y (hpar y hy hyn), ?_⟩
      have e : composed tbl (store st x l).ancestors x = composed tbl st.ancestors x :=
        composed_congr tbl _ _ x (fun y hy => anc y (by rintro rfl; exact hself hy))
      rw [ancc, e]
      exact hl
    · have hx1 : st.state x = Resolved := by simpa [store, hxc] using hx
      obtain ⟨h1, h2⟩ := h.equation x hx1
      have hne : ∀ y ∈ parents tbl x, y ≠ c := by
        intro y hy hyc
        subst hyc
        have ht := h1 y hy (h.inTable y (by rw [hs]; decide))
        unfold Terminal at ht
        rw [hs] at ht
        rcases ht with ht | ht <;> exact absurd ht (by decide)
      refine ⟨fun y hy hyn => term y (h1 y hy hyn), ?_⟩
      rw [anc x hxc, h2]
      congr 1
      exact (composed_congr tbl _ _ x (fun y hy => anc y (hne y hy))).symm
  · intro x hx hr
    by_cases hxc : x = c
    · subst hxc
      exact hself hx
    · apply h.selfLoop x hx
      simpa [store, hxc] using hr
  · obtain ⟨t, ht⟩ := h.ordered
    refine ⟨fun x => if x = c then ((parents tbl c).map t).sum + 1 else t x, ?_⟩
    intro x hx y hy hyr
    by_cases hxc : x = c
    · subst hxc
      have hyx : y ≠ x := by
        rintro rfl
        exact hself hy
      simp only [hyx, if_false, if_true]
      have := List.single_le_sum (fun _ _ => Nat.zero_le _) (t y)
        (List.mem_map.mpr ⟨y, hy, rfl⟩)
      omega
    · have hx1 : st.state x = Resolved := by simpa [store, hxc] using hx
      have hyc : y ≠ c := by
        rintro rfl
        have ht1 := (h.equation x hx1).1 y hy (h.inTable y (by rw [hs]; decide))
        unfold Terminal at ht1
        rw [hs] at ht1
        rcases ht1 with ht1 | ht1 <;> exact absurd ht1 (by decide)
      have hy1 : st.state y = Resolved := by simpa [store, hyc] using hyr
      simp only [hxc, hyc, if_false]
      exact ht x hx1 y hy hy1

theorem ext_finish_error (st st2 : LinState) (c : SymbolRef) (hs : st.state c = Unresolved)
    (h : Ext (markInProgress st c) st2) (he : st2.state c = Error) : Ext st st2 := by
  have hne : ∀ x, st.state x ≠ Unresolved → x ≠ c := by
    rintro x hx rfl
    exact hx hs
  refine ⟨?_, ?_, ?_, ?_⟩
  · intro x hx
    have hxc : x ≠ c := hne x (by
      unfold Terminal at hx
      rcases hx with hx | hx <;> rw [hx] <;> decide)
    have := h.terminal x (by unfold Terminal at hx ⊢; simpa [markInProgress, hxc] using hx)
    simpa [markInProgress, hxc] using this
  · intro x hx
    have hxc : x ≠ c := hne x (by rw [hx]; decide)
    exact h.progress x (by simpa [markInProgress, hxc] using hx)
  · intro x hx
    have hxc : x ≠ c := by
      rintro rfl
      rw [he] at hx
      exact absurd hx (by decide)
    simpa [markInProgress, hxc] using h.noNew x hx
  · intro x hx
    exact h.errors x hx

theorem ext_finish_store (st st2 : LinState) (c : SymbolRef) (l : List SymbolRef)
    (hs : st.state c = Unresolved) (h : Ext (markInProgress st c) st2) :
    Ext st (store st2 c l) := by
  have hne : ∀ x, st.state x ≠ Unresolved → x ≠ c := by
    rintro x hx rfl
    exact hx hs
  refine ⟨?_, ?_, ?_, ?_⟩
  · intro x hx
    have hxc : x ≠ c := hne x (by
      unfold Terminal at hx
      rcases hx with hx | hx <;> rw [hx] <;> decide)
    have := h.terminal x (by unfold Terminal at hx ⊢; simpa [markInProgress, hxc] using hx)
    simpa [markInProgress, store, hxc] using this
  · intro x hx
    have hxc : x ≠ c := hne x (by rw [hx]; decide)
    have := h.progress x (by simpa [markInProgress, hxc] using hx)
    simpa [store, hxc] using this
  · intro x hx
    have hxc : x ≠ c := by
      rintro rfl
      simp [store] at hx
    have hx2 : st2.state x = InProgress := by simpa [store, hxc] using hx
    simpa [markInProgress, hxc] using h.noNew x hx2
  · intro x hx
    exact h.errors x hx

/-- The list returned for a symbol stays its ancestor list in every later state. -/
theorem ancestors_stable (tbl : SymbolTable) (S : SymbolRef → Prop) (st1 st2 : LinState)
    (m : SymbolRef) (h1 : Inv tbl S st1) (h2 : Inv tbl S st2) (h : Ext st1 st2)
    (ht : m < tbl.length → Terminal st1 m) : st2.ancestors m = st1.ancestors m := by
  by_cases hm : m < tbl.length
  · exact (h.terminal m (ht hm)).2
  · have u1 : st1.state m = Unresolved := by
      by_contra hne
      exact hm (h1.inTable m hne)
    have u2 : st2.state m = Unresolved := by
      by_contra hne
      exact hm (h2.inTable m hne)
    rw [h1.unresolved m u1, h2.unresolved m u2]

theorem Guard.of_ext {S : SymbolRef → Prop} {rank : SymbolRef → Nat} {st st1 : LinState}
    {c : SymbolRef} (h : Ext st st1) (hg : Guard S rank st c) : Guard S rank st1 c :=
  fun x hx hp => hg x hx (h.noNew x hp)

theorem linearizeAll_spec (tbl : SymbolTable) (S : SymbolRef → Prop) (rank : SymbolRef → Nat)
    (fuel : Nat) (go : LinState → SymbolRef → Option (List SymbolRef × LinState))
    (hgo : ∀ st c, Inv tbl S st → Guard S rank st c → unresolvedCount tbl st < fuel →
      ∃ l st1, go st c = some (l, st1) ∧ Post tbl S st c l st1)
    (ms : List SymbolRef) (st : LinState) (hinv : Inv tbl S st)
    (hg : ∀ m ∈ ms, Guard S rank st m) (hfuel : unresolvedCount tbl st < fuel) :
    ∃ ls st1, linearizeAll go st ms = some (ls, st1) ∧ PostAll tbl S st ms ls st1 := by
  induction ms generalizing st with
  | nil =>
    exact ⟨[], st, rfl, Ext.refl st, hinv, rfl, fun m hm => absurd hm (List.not_mem_nil _),
      fun m hm => absurd hm (List.not_mem_nil _)⟩
  | cons m ms ih =>
    obtain ⟨l, st1, e1, p1⟩ := hgo st m hinv (hg m (List.mem_cons_self _ _)) hfuel
    have hfuel1 : unresolvedCount tbl st1 < fuel :=
      lt_of_le_of_lt (unresolvedCount_le_of_ext tbl p1.ext) hfuel
    obtain ⟨ls, st2, e2, p2⟩ := ih st1 p1.inv
      (fun m1 hm1 => Guard.of_ext p1.ext (hg m1 (List.mem_cons_of_mem _ hm1))) hfuel1
    refine ⟨l ++ ls, st2, ?_, ?_⟩
    · simp only [linearizeAll, e1, e2]
    · refine ⟨p1.ext.trans p2.ext, p2.inv, ?_, ?_, ?_⟩
      · rw [List.flatMap_cons, p1.result, p2.result,
          ancestors_stable tbl S st1 st2 m p1.inv p2.inv p2.ext p1.terminal]
      · intro m1 hm1 hn
        rcases List.mem_cons.mp hm1 with rfl | hm1
        · exact p2.ext.terminal_of _ (p1.terminal hn)
        · exact p2.terminal m1 hm1 hn
      · intro m1 hm1 hp
        rcases List.mem_cons.mp hm1 with rfl | hm1
        · have := p1.detected hp
          rw [(p2.ext.terminal _ (Or.inr this)).1]
          exact this
        · rcases p1.ext.progress m1 hp with h | h
          · exact p2.detected m1 hm1 h
          · rw [(p2.ext.terminal _ (Or.inr h)).1]
            exact h

theorem linearize_spec (tbl : SymbolTable) (S : SymbolRef → Prop) (rank : SymbolRef → Nat)
    (hS : Ranked tbl S rank) :
    ∀ (fuel : Nat) (st : LinState) (c : SymbolRef), Inv tbl S st → Guard S rank st c →
      unresolvedCount tbl st < fuel →
      ∃ l st1, linearize tbl fuel st c = some (l, st1) ∧ Post tbl S st c l st1 := by
  intro fuel
  induction fuel with
  | zero => intro st c _ _ h; exact absurd h (Nat.not_lt_zero _)
  | succ fuel ih =>
    intro st c hinv hg hfuel
    rcases state_cases (st.state c) with hs | hs | hs | hs
    · -- Unresolved
      cases hsym : tbl[c]? with
      | none =>
        refine ⟨[], st, by simp only [linearize, hs, hsym], Ext.refl st, hinv,
          (hinv.unresolved c hs).symm, ?_, ?_⟩
        · intro hc
          rw [List.getElem?_eq_none_iff] at hsym
          exact absurd hc (Nat.not_lt.mpr hsym)
        · intro hp
          rw [hs] at hp
          exact absurd hp (by decide)
      | some sym =>
        have hc : c < tbl.length := lt_length_of_some tbl c sym hsym
        have hpar := parents_of_some tbl c sym hsym
        have hinv0 := inv_mark tbl S st c hinv hs hc
        have hfuel0 : unresolvedCount tbl (markInProgress st c) < fuel := by
          have := unresolvedCount_mark tbl st c hc hs
          omega
        have hst0 : (markInProgress st c).state c = InProgress := by simp [markInProgress]
        have hg0 : ∀ m ∈ parents tbl c, Guard S rank (markInProgress st c) m := by
          intro m hm x hSx hx
          by_cases hxc : x = c
          · subst hxc
            exact (hS x hSx).2 m hm
          · have hx1 : st.state x = InProgress := by simpa [markInProgress, hxc] using hx
            obtain ⟨hSc, hr⟩ := hg x hSx hx1
            obtain ⟨hSm, hr2⟩ := (hS c hSc).2 m hm
            exact ⟨hSm, lt_trans hr2 hr⟩
        obtain ⟨ps, st1, e1, p1⟩ := linearizeAll_spec tbl S rank fuel (linearize tbl fuel)
          (fun st c => ih st c) (prepends sym).reverse (markInProgress st c) hinv0
          (fun m hm => hg0 m (by rw [hpar]; exact List.mem_append_left _ hm)) hfuel0
        have hfuel1 : unresolvedCount tbl st1 < fuel :=
          lt_of_le_of_lt (unresolvedCount_le_of_ext tbl p1.ext) hfuel0
        obtain ⟨rest, st2, e2, p2⟩ := linearizeAll_spec tbl S rank fuel (linearize tbl fuel)
          (fun st c => ih st c) ((includes sym).reverse ++ sym.superclass.toList) st1 p1.inv
          (fun m hm => Guard.of_ext p1.ext (hg0 m (by rw [hpar]; exact List.mem_append_right _ hm)))
          hfuel1
        have hext02 : Ext (markInProgress st c) st2 := p1.ext.trans p2.ext
        have hlin : linearize tbl (fuel + 1) st c =
            some (finish st2 c (dedupKeepFirst (ps ++ ([c] ++ rest)))) := by
          simp only [linearize, hs, hsym, e1, e2]
        -- every parent in the table is terminal in the last state
        have hterm : ∀ y ∈ parents tbl c, y < tbl.length → Terminal st2 y := by
          intro y hy hyn
          rw [hpar] at hy
          rcases List.mem_append.mp hy with h | h
          · exact p2.ext.terminal_of _ (p1.terminal y h hyn)
          · exact p2.terminal y h hyn
        -- a parent that is `c` itself has been detected
        have hdet : c ∈ parents tbl c → st2.state c = Error := by
          intro hy
          rw [hpar] at hy
          rcases List.mem_append.mp hy with h | h
          · have := p1.detected c h hst0
            rw [(p2.ext.terminal _ (Or.inr this)).1]
            exact this
          · rcases p1.ext.progress c hst0 with h1 | h1
            · exact p2.detected c h h1
            · rw [(p2.ext.terminal _ (Or.inr h1)).1]
              exact h1
        have hcomp : ps ++ ([c] ++ rest) = composed tbl st2.ancestors c := by
          simp only [composed, hsym]
          rw [p1.result, p2.result]
          congr 1
          apply List.flatMap_congr
          intro m hm
          exact (ancestors_stable tbl S st1 st2 m p1.inv p2.inv p2.ext (p1.terminal m hm)).symm
        rcases hext02.progress c hst0 with hfin | hfin
        · -- the sentinel is still there: the composed list is stored
          have hself : c ∉ parents tbl c := by
            intro hy
            have := hdet hy
            rw [hfin] at this
            exact absurd this (by decide)
          refine ⟨dedupKeepFirst (ps ++ ([c] ++ rest)),
            store st2 c (dedupKeepFirst (ps ++ ([c] ++ rest))), ?_, ?_⟩
          · rw [hlin]
            simp only [finish, hfin]
          · refine ⟨ext_finish_store st st2 c _ hs hext02, ?_, ?_, ?_, ?_⟩
            · exact inv_store tbl S st2 c _ p2.inv hfin hself hterm
                (by rw [hsym]; rfl) (by rw [hcomp])
            · simp [store]
            · intro _
              exact Or.inl (by simp [store])
            · intro hp
              rw [hs] at hp
              exact absurd hp (by decide)
        · -- the cycle detection has replaced the sentinel
          refine ⟨st2.ancestors c, st2, ?_, ?_⟩
          · rw [hlin]
            simp only [finish, hfin]
          · refine ⟨ext_finish_error st st2 c hs hext02 hfin, p2.inv, rfl, fun _ => Or.inr hfin, ?_⟩
            intro hp
            rw [hs] at hp
            exact absurd hp (by decide)
    · -- InProgress
      have hnS : ¬ S c := by
        intro hSc
        exact absurd (hg c hSc hs).2 (lt_irrefl _)
      refine ⟨[c], reportCycle st c, by simp only [linearize, hs], ext_reportCycle st c hs,
        inv_reportCycle tbl S st c hinv hs hnS, by simp [reportCycle], ?_, ?_⟩
      · intro _
        exact Or.inr (by simp [reportCycle])
      · intro _
        simp [reportCycle]
    · -- Resolved
      refine ⟨st.ancestors c, st, by simp only [linearize, hs], Ext.refl st, hinv, rfl,
        fun _ => Or.inl hs, ?_⟩
      intro hp
      rw [hs] at hp
      exact absurd hp (by decide)
    · -- Error
      refine ⟨st.ancestors c, st, by simp only [linearize, hs], Ext.refl st, hinv, rfl,
        fun _ => Or.inr hs, ?_⟩
      intro hp
      rw [hs] at hp
      exact absurd hp (by decide)

theorem inv_init (tbl : SymbolTable) (S : SymbolRef → Prop) : Inv tbl S LinState.init := by
  refine ⟨?_, ?_, ?_, ?_, ?_, ?_, ?_, ?_, ?_, ⟨fun _ => 0, ?_⟩⟩ <;> intros <;>
    simp_all [LinState.init]

theorem guard_of_no_sentinel (S : SymbolRef → Prop) (rank : SymbolRef → Nat) (st : LinState)
    (c : SymbolRef) (h : ∀ x, st.state x ≠ InProgress) : Guard S rank st c :=
  fun x _ hx => absurd hx (h x)

theorem linearizeEach_spec (tbl : SymbolTable) (S : SymbolRef → Prop) (rank : SymbolRef → Nat)
    (hS : Ranked tbl S rank) (fuel : Nat) (cs : List SymbolRef) (st : LinState)
    (hinv : Inv tbl S st) (hno : ∀ x, st.state x ≠ InProgress)
    (hfuel : unresolvedCount tbl st < fuel) :
    ∃ st1, linearizeEach tbl fuel st cs = some st1 ∧ Ext st st1 ∧ Inv tbl S st1 ∧
      (∀ x, st1.state x ≠ InProgress) ∧ ∀ c ∈ cs, c < tbl.length → Terminal st1 c := by
  induction cs generalizing st with
  | nil =>
    exact ⟨st, rfl, Ext.refl st, hinv, hno, fun c hc => absurd hc (List.not_mem_nil _)⟩
  | cons c cs ih =>
    obtain ⟨l, st1, e1, p1⟩ := linearize_spec tbl S rank hS fuel st c hinv
      (guard_of_no_sentinel S rank st c hno) hfuel
    have hno1 : ∀ x, st1.state x ≠ InProgress := fun x hx => hno x (p1.ext.noNew x hx)
    obtain ⟨st2, e2, x2, i2, n2, t2⟩ := ih st1 p1.inv hno1
      (lt_of_le_of_lt (unresolvedCount_le_of_ext tbl p1.ext) hfuel)
    refine ⟨st2, by simp only [linearizeEach, e1, e2], p1.ext.trans x2, i2, n2, ?_⟩
    intro m hm hn
    rcases List.mem_cons.mp hm with rfl | hm
    · exact x2.terminal_of _ (p1.terminal hn)
    · exact t2 m hm hn

/-- Linearization of a whole table always ends, with every symbol of the table terminal
and the invariant established. -/
theorem computeLinearization_spec (tbl : SymbolTable) (S : SymbolRef → Prop)
    (rank : SymbolRef → Nat) (hS : Ranked tbl S rank) :
    ∃ st, computeLinearization tbl = some st ∧ Inv tbl S st ∧
      (∀ x, st.state x ≠ InProgress) ∧ ∀ x, x < tbl.length → Terminal st x := by
  obtain ⟨st, e, -, hinv, hno, ht⟩ := linearizeEach_spec tbl S rank hS (tbl.length + 1)
    (List.range tbl.length) LinState.init (inv_init tbl S)
    (fun x => by simp [LinState.init])
    (Nat.lt_succ_of_le (unresolvedCount_le_length tbl _))
  exact ⟨st, e, hinv, hno, fun x hx => ht x (List.mem_range.mpr hx) hx⟩

theorem resolved_of_ranked (tbl : SymbolTable) (S : SymbolRef → Prop) (rank : SymbolRef → Nat)
    (hS : Ranked tbl S rank) (st : LinState) (hinv : Inv tbl S st)
    (ht : ∀ x, x < tbl.length → Terminal st x) (x : SymbolRef) (hx : S x) :
    st.state x = Resolved := by
  rcases ht x (hS x hx).1 with h | h
  · exact h
  · exact absurd h (hinv.good x hx)

/-- On a ranked set the final ancestor lists are determined by the declarations of the
set alone. -/
theorem ancestors_agree (tbl tbl2 : SymbolTable) (S : SymbolRef → Prop) (rank : SymbolRef → Nat)
    (hS : Ranked tbl S rank) (hagree : ∀ x, S x → tbl2[x]? = tbl[x]?)
    (st st2 : LinState)
    (h1 : ∀ x, S x → st.ancestors x = dedupKeepFirst (composed tbl st.ancestors x))
    (h2 : ∀ x, S x → st2.ancestors x = dedupKeepFirst (composed tbl2 st2.ancestors x)) :
    ∀ (k : Nat) (x : SymbolRef), S x → rank x < k → st2.ancestors x = st.ancestors x := by
  intro k
  induction k with
  | zero => intro x _ h; exact absurd h (Nat.not_lt_zero _)
  | succ k ih =>
    intro x hx hk
    rw [h1 x hx, h2 x hx]
    congr 1
    have hc : composed tbl2 st2.ancestors x = composed tbl st2.ancestors x := by
      simp only [composed, hagree x hx]
    rw [hc]
    apply composed_congr
    intro y hy
    obtain ⟨hSy, hr⟩ := (hS x hx).2 y hy
    exact ih y hSy (by omega)

/-- The final state on a closed acyclic part: every symbol of it is resolved and its list
is the de-duplicated composition. -/
theorem closedAcyclic_spec (tbl : SymbolTable) (S : List SymbolRef) (rank : SymbolRef → Nat)
    (hS : ClosedAcyclic tbl S rank) :
    ∃ st, computeLinearization tbl = some st ∧ Inv tbl (fun x => x ∈ S) st ∧
      ∀ x ∈ S, st.state x = Resolved ∧
        st.ancestors x = dedupKeepFirst (composed tbl st.ancestors x) := by
  obtain ⟨st, e, hinv, -, ht⟩ := computeLinearization_spec tbl (fun x => x ∈ S) rank hS
  refine ⟨st, e, hinv, fun x hx => ?_⟩
  have hr := resolved_of_ranked tbl _ rank hS st hinv ht x hx
  exact ⟨hr, (hinv.equation x hr).2⟩

theorem dedupKeepFirst_split (l1 l2 : List SymbolRef) (x : SymbolRef) (hx : x ∉ l1) :
    ∃ r, dedupKeepFirst (l1 ++ x :: l2) = dedupKeepFirst l1 ++ x :: r := by
  refine ⟨((dedupKeepFirst l2).filter (fun y => y ≠ x)).filter (fun y => y ∉ l1), ?_⟩
  rw [dedupKeepFirst_append]
  simp [dedupKeepFirst, List.filter_cons, hx]

/-- C2. In an acyclic hierarchy the ancestor list of every symbol has no duplicate and is
the keep-first de-duplication of the concatenation prepends, self, includes, ancestors of
the superclass: it has the members of the concatenation, and each member is preceded by
exactly the distinct symbols that precede its first occurrence there. For the diamond
`module M; class B; include M; end; class C < B; include M; end` the list of `C` is
`[C, M, B]`. -/
theorem ancestors_duplicate_free_keep_first (tbl : SymbolTable) (S : List SymbolRef)
    (rank : SymbolRef → Nat) (c : SymbolRef) (hS : ClosedAcyclic tbl S rank) (hc : c ∈ S) :
    ∃ st, computeLinearization tbl = some st ∧
      (st.ancestors c).Nodup ∧
      st.ancestors c = dedupKeepFirst (composed tbl st.ancestors c) ∧
      (∀ x, x ∈ st.ancestors c ↔ x ∈ composed tbl st.ancestors c) ∧
      (∀ l1 x l2, composed tbl st.ancestors c = l1 ++ x :: l2 → x ∉ l1 →
        ∃ r, st.ancestors c = dedupKeepFirst l1 ++ x :: r) ∧
      ancestorsOf diamondTable 2 = some [2, 0, 1] := by
  obtain ⟨st, e, -, h⟩ := closedAcyclic_spec tbl S rank hS
  obtain ⟨-, heq⟩ := h c hc
  refine ⟨st, e, ?_, heq, ?_, ?_, by decide⟩
  · rw [heq]
    exact nodup_dedupKeepFirst _
  · intro x
    rw [heq, mem_dedupKeepFirst]
  · intro l1 x l2 hl hx
    rw [heq, hl]
    exact dedupKeepFirst_split l1 l2 x hx

/-- Witness of C2: the diamond, whose three symbols form a closed acyclic set. -/
theorem ancestors_duplicate_free_keep_first_witness :
    ClosedAcyclic diamondTable [0, 1, 2] id ∧
    ∃ st, computeLinearization diamondTable = some st ∧
      (st.ancestors 2).Nodup ∧
      st.ancestors 2 = dedupKeepFirst (composed diamondTable st.ancestors 2) ∧
      (∀ x, x ∈ st.ancestors 2 ↔ x ∈ composed diamondTable st.ancestors 2) ∧
      (∀ l1 x l2, composed diamondTable st.ancestors 2 = l1 ++ x :: l2 → x ∉ l1 →
        ∃ r, st.ancestors 2 = dedupKeepFirst l1 ++ x :: r) ∧
      ancestorsOf diamondTable 2 = some [2, 0, 1] :=
  ⟨by decide,
   ancestors_duplicate_free_keep_first diamondTable [0, 1, 2] id 2 (by decide) (by decide)⟩

theorem composed_of_no_parents (tbl : SymbolTable) (anc : SymbolRef → List SymbolRef)
    (x : SymbolRef) (hx : x < tbl.length) (hp : parents tbl x = []) :
    composed tbl anc x = [x] := by
  cases hs : tbl[x]? with
  | none =>
    rw [List.getElem?_eq_none_iff] at hs
    exact absurd hx (Nat.not_lt.mpr hs)
  | some sym =>
    rw [parents_of_some tbl x sym hs] at hp
    obtain ⟨h1, h2⟩ := List.append_eq_nil.mp hp
    simp only [composed, hs, h1, h2, List.flatMap_nil, List.nil_append, List.append_nil]

/-- C1, amended. In an acyclic hierarchy, for a class `C` with superclass `B`, no prepend,
and exactly the includes `X` then `Y` with `X ≠ Y`, the list of `C` is the keep-first
de-duplication of `[C] ++ ancestors(Y) ++ ancestors(X) ++ ancestors(B)`; when moreover `X`
and `Y` have no superclass, include or prepend of their own, `B` has no prepend and is
neither `X` nor `Y`, the list of `C` is `[C, Y, X, B]` followed by the tail of
`ancestors(B)` without `C`, `Y` and `X`. -/
theorem ancestors_of_two_includes (tbl : SymbolTable) (S : List SymbolRef)
    (rank : SymbolRef → Nat) (c b x y : SymbolRef) (sym : Symbol)
    (hS : ClosedAcyclic tbl S rank) (hc : c ∈ S) (hsym : tbl[c]? = some sym)
    (hsup : sym.superclass = some b) (hpre : prepends sym = [])
    (hinc : includes sym = [x, y]) (hxy : x ≠ y) :
    ∃ st, computeLinearization tbl = some st ∧
      st.ancestors c =
        dedupKeepFirst ([c] ++ st.ancestors y ++ st.ancestors x ++ st.ancestors b) ∧
      (parents tbl x = [] → parents tbl y = [] → b ≠ x → b ≠ y →
        (∀ sb, tbl[b]? = some sb → prepends sb = []) →
        ∃ t, st.ancestors b = b :: t ∧
          st.ancestors c = [c, y, x, b] ++ t.filter (fun z => z ≠ c ∧ z ≠ y ∧ z ≠ x)) := by
  obtain ⟨st, e, hinv, h⟩ := closedAcyclic_spec tbl S rank hS
  obtain ⟨-, heq⟩ := h c hc
  have hpar : parents tbl c = [y, x, b] := by
    rw [parents_of_some tbl c sym hsym, hpre, hinc, hsup]
    rfl
  have hcomp : composed tbl st.ancestors c =
      [c] ++ st.ancestors y ++ st.ancestors x ++ st.ancestors b := by
    simp only [composed, hsym, hpre, hinc, hsup]
    simp
  have hmem : ∀ p ∈ [y, x, b], p ∈ S ∧ rank p < rank c := by
    intro p hp
    exact (hS c hc).2 p (by rw [hpar]; exact hp)
  have hyS := hmem y (by simp)
  have hxS := hmem x (by simp)
  have hbS := hmem b (by simp)
  refine ⟨st, e, by rw [heq, hcomp], ?_⟩
  intro hpx hpy hbx hby hpb
  have hcy : c ≠ y := by rintro rfl; exact absurd hyS.2 (lt_irrefl _)
  have hcx : c ≠ x := by rintro rfl; exact absurd hxS.2 (lt_irrefl _)
  have hcb : c ≠ b := by rintro rfl; exact absurd hbS.2 (lt_irrefl _)
  have hax : st.ancestors x = [x] := by
    rw [(h x hxS.1).2, composed_of_no_parents tbl _ x (hS x hxS.1).1 hpx]
    rfl
  have hay : st.ancestors y = [y] := by
    rw [(h y hyS.1).2, composed_of_no_parents tbl _ y (hS y hyS.1).1 hpy]
    rfl
  obtain ⟨hbres, hbeq⟩ := h b hbS.1
  obtain ⟨sb, hsb⟩ : ∃ sb, tbl[b]? = some sb := by
    cases hs : tbl[b]? with
    | none =>
      rw [List.getElem?_eq_none_iff] at hs
      exact absurd (hS b hbS.1).1 (Nat.not_lt.mpr hs)
    | some sb => exact ⟨sb, rfl⟩
  have hbcomp : composed tbl st.ancestors b =
      b :: ((includes sb).reverse ++ sb.superclass.toList).flatMap st.ancestors := by
    simp only [composed, hsb, hpb sb hsb]
    simp
  have hbt : st.ancestors b = b :: (dedupKeepFirst
      (((includes sb).reverse ++ sb.superclass.toList).flatMap st.ancestors)).filter
        (fun z => z ≠ b) := by
    rw [hbeq, hbcomp]
    rfl
  refine ⟨_, hbt, ?_⟩
  have hnd : (st.ancestors b).Nodup := (hinv.resolved b hbres).1
  rw [heq, hcomp, hax, hay]
  have hd : dedupKeepFirst (st.ancestors b) = st.ancestors b := dedupKeepFirst_of_nodup _ hnd
  show dedupKeepFirst (c :: y :: x :: st.ancestors b) = _
  simp only [dedupKeepFirst, hd]
  rw [hbt]
  simp only [List.filter_cons, ne_eq, decide_not, hbx, hby, Ne.symm hcb, Ne.symm hxy, Ne.symm hcx,
    Ne.symm hcy, hxy, decide_False, Bool.not_false, if_true, List.filter_filter,
    List.cons_append, List.nil_append, List.cons.injEq, true_and]
  apply List.filter_congr
  intro z _
  by_cases h1 : z = c <;> by_cases h2 : z = y <;> by_cases h3 : z = x <;> simp [h1, h2, h3]

/-- Witness of C1: the class with two plain includes. -/
theorem ancestors_of_two_includes_witness :
    ClosedAcyclic twoIncludesTable [0, 1, 2, 3, 4] id ∧
    ∃ st, computeLinearization twoIncludesTable = some st ∧
      st.ancestors 4 =
        dedupKeepFirst ([4] ++ st.ancestors 2 ++ st.ancestors 1 ++ st.ancestors 3) ∧
      (parents twoIncludesTable 1 = [] → parents twoIncludesTable 2 = [] → 3 ≠ 1 → 3 ≠ 2 →
        (∀ sb, twoIncludesTable[3]? = some sb → prepends sb = []) →
        ∃ t, st.ancestors 3 = 3 :: t ∧
          st.ancestors 4 = [4, 2, 1, 3] ++ t.filter (fun z => z ≠ 4 ∧ z ≠ 2 ∧ z ≠ 1)) :=
  ⟨by decide,
   ancestors_of_two_includes twoIncludesTable [0, 1, 2, 3, 4] id 4 3 1 2
     { superclass := some 3, mixins := [includeOf 1, includeOf 2], mixesInClassMethods := none }
     (by decide) (by decide) rfl rfl (by decide) (by decide) (by decide)⟩

/-- Counterexample to C1 as stated: `C` includes `X` then `Y` and `Y` includes `Z`; the
list of `C` is `[C, Y, Z, X, B]`, which does not begin with `[C, Y, X, B]`. -/
theorem ancestors_of_two_includes_counterexample :
    ancestorsOf nestedIncludeTable 4 = some [4, 2, 0, 1, 3] ∧
    ¬ (∀ (tbl : SymbolTable) (c b x y : SymbolRef) (sym : Symbol),
        tbl[c]? = some sym → sym.superclass = some b → prepends sym = [] →
        includes sym = [x, y] → x ≠ y →
        ∃ t, ancestorsOf tbl c = some ([c, y, x, b] ++ t)) := by
  refine ⟨by decide, ?_⟩
  intro h
  obtain ⟨t, ht⟩ := h nestedIncludeTable 4 3 1 2
    { superclass := some 3, mixins := [includeOf 1, includeOf 2], mixesInClassMethods := none }
    rfl rfl (by decide) (by decide) (by decide)
  have e : ancestorsOf nestedIncludeTable 4 = some [4, 2, 0, 1, 3] := by decide
  rw [e] at ht
  simp at ht

theorem parents_agree (tbl tbl2 : SymbolTable) (x : SymbolRef) (h : tbl2[x]? = tbl[x]?) :
    parents tbl2 x = parents tbl x := by
  simp only [parents, h]

theorem ranked_agree (tbl tbl2 : SymbolTable) (S : SymbolRef → Prop) (rank : SymbolRef → Nat)
    (hS : Ranked tbl S rank) (hagree : ∀ x, S x → tbl2[x]? = tbl[x]?) : Ranked tbl2 S rank := by
  intro x hx
  obtain ⟨h1, h2⟩ := hS x hx
  refine ⟨?_, ?_⟩
  · have e := hagree x hx
    by_contra hlt
    rw [List.getElem?_eq_none (Nat.le_of_not_lt hlt)] at e
    have e2 := List.getElem?_eq_none_iff.mp e.symm
    exact absurd h1 (Nat.not_lt.mpr e2)
  · rw [parents_agree tbl tbl2 x (hagree x hx)]
    exact h2

theorem path_decreases (tbl : SymbolTable) (st : LinState) (t : SymbolRef → Nat)
    (ht : ∀ x, st.state x = Resolved → ∀ y ∈ parents tbl x, st.state y = Resolved → t y < t x)
    (a b : SymbolRef) (hab : Relation.TransGen (fun a b => b ∈ parents tbl a) a b) :
    (∀ d, Reach tbl a d → Reach tbl d b → st.state d = Resolved) → t b < t a := by
  induction hab using Relation.TransGen.head_induction_on with
  | base hedge =>
    intro hres
    exact ht _ (hres _ Relation.ReflTransGen.refl (Relation.ReflTransGen.single hedge)) _ hedge
      (hres _ (Relation.ReflTransGen.single hedge) Relation.ReflTransGen.refl)
  | ih hedge hrest hrec =>
    intro hres
    have h1 := hrec (fun d h1 h2 => hres d (Relation.ReflTransGen.head hedge h1) h2)
    have h2 := ht _ (hres _ Relation.ReflTransGen.refl
        (Relation.ReflTransGen.head hedge hrest.to_reflTransGen)) _ hedge
      (hres _ (Relation.ReflTransGen.single hedge) hrest.to_reflTransGen)
    exact lt_trans h1 h2

/-- Every cycle of the hierarchy goes through a class with a reported error. -/
theorem cycle_has_error (tbl : SymbolTable) (S : SymbolRef → Prop) (st : LinState)
    (hinv : Inv tbl S st) (hterm : ∀ x, x < tbl.length → Terminal st x) (c : SymbolRef)
    (hc : Relation.TransGen (fun a b => b ∈ parents tbl a) c c) :
    ∃ d, Reach tbl c d ∧ Reach tbl d c ∧ d ∈ st.errors ∧ st.ancestors d = [d] := by
  obtain ⟨t, ht⟩ := hinv.ordered
  by_contra hno
  have hres : ∀ d, Reach tbl c d → Reach tbl d c → st.state d = Resolved := by
    intro d h1 h2
    have hd : Relation.TransGen (fun a b => b ∈ parents tbl a) d d := by
      rcases Relation.reflTransGen_iff_eq_or_transGen.mp h2 with h | h
      · rw [h] at hc; exact hc
      · rcases Relation.reflTransGen_iff_eq_or_transGen.mp h1 with h3 | h3
        · rw [h3]; exact hc
        · exact Relation.TransGen.trans h h3
    obtain ⟨y, hy, -⟩ := Relation.TransGen.head'_iff.mp hd
    have hlt := lt_length_of_mem_parents tbl d y hy
    rcases hterm d hlt with h | h
    · exact h
    · exact absurd ⟨d, h1, h2, (hinv.error d h).2, (hinv.error d h).1⟩ hno
  exact absurd (path_decreases tbl st t ht c c hc hres) (lt_irrefl _)

/-- C3, amended. Linearization ends on every hierarchy, cyclic or not. Every cycle goes
through a class with a reported error; a class that names itself as its superclass or as
a mixin is such a class; and every class with a reported error has the list `[C]`. Every
class without a reported error, the other classes of a cycle among them, has an ordinary
list: without duplicate, with the class itself in it, the keep-first de-duplication of
its composition. A class of a closed acyclic part gets no error, and its list is the same
in every hierarchy with the same declarations on that part, so it does not depend on
cyclic classes elsewhere. -/
theorem cyclic_hierarchy_contained (tbl tbl2 : SymbolTable) (S : List SymbolRef)
    (rank : SymbolRef → Nat) (hS : ClosedAcyclic tbl S rank)
    (hagree : ∀ x ∈ S, tbl2[x]? = tbl[x]?) :
    ∃ st st2, computeLinearization tbl = some st ∧ computeLinearization tbl2 = some st2 ∧
      (∀ c, Relation.TransGen (fun a b => b ∈ parents tbl a) c c →
        ∃ d, Reach tbl c d ∧ Reach tbl d c ∧ d ∈ st.errors ∧ st.ancestors d = [d]) ∧
      (∀ c, c ∈ parents tbl c → c ∈ st.errors ∧ st.ancestors c = [c]) ∧
      (∀ c, c ∈ st.errors → st.ancestors c = [c]) ∧
      (∀ c, c < tbl.length → c ∉ st.errors →
        (st.ancestors c).Nodup ∧ c ∈ st.ancestors c ∧
        st.ancestors c = dedupKeepFirst (composed tbl st.ancestors c)) ∧
      (∀ x ∈ S, x ∉ st.errors ∧ st2.ancestors x = st.ancestors x) := by
  have hS2 : Ranked tbl2 (fun x => x ∈ S) rank := ranked_agree tbl tbl2 _ rank hS hagree
  obtain ⟨st, e, hinv, -, ht⟩ := computeLinearization_spec tbl (fun x => x ∈ S) rank hS
  obtain ⟨st2, e2, hinv2, -, ht2⟩ := computeLinearization_spec tbl2 (fun x => x ∈ S) rank hS2
  refine ⟨st, st2, e, e2, cycle_has_error tbl _ st hinv ht, ?_, ?_, ?_, ?_⟩
  · intro c hc
    have hlt := lt_length_of_mem_parents tbl c c hc
    rcases ht c hlt with h | h
    · exact absurd h (hinv.selfLoop c hc)
    · exact ⟨(hinv.error c h).2, (hinv.error c h).1⟩
  · intro c hc
    exact (hinv.error c (hinv.reported c hc)).1
  · intro c hlt hne
    rcases ht c hlt with h | h
    · exact ⟨(hinv.resolved c h).1, (hinv.resolved c h).2, (hinv.equation c h).2⟩
    · exact absurd (hinv.error c h).2 hne
  · intro x hx
    refine ⟨fun he => hinv.good x hx (hinv.reported x he), ?_⟩
    apply ancestors_agree tbl tbl2 (fun x => x ∈ S) rank hS hagree st st2 _ _ (rank x + 1) x hx
      (Nat.lt_succ_self _)
    · intro y hy
      exact (hinv.equation y (resolved_of_ranked tbl _ rank hS st hinv ht y hy)).2
    · intro y hy
      exact (hinv2.equation y (resolved_of_ranked tbl2 _ rank hS2 st2 hinv2 ht2 y hy)).2

/-- Witness of C3: two cyclic classes and an unrelated chain, compared with the table
where the cyclic classes are replaced by plain symbols. -/
theorem cyclic_hierarchy_contained_witness :
    ClosedAcyclic cycleAndChainTable [2, 3] id ∧
    (∀ x ∈ [2, 3], chainOnlyTable[x]? = cycleAndChainTable[x]?) ∧
    ∃ st st2, computeLinearization cycleAndChainTable = some st ∧
      computeLinearization chainOnlyTable = some st2 ∧
      (∀ c, Relation.TransGen (fun a b => b ∈ parents cycleAndChainTable a) c c →
        ∃ d, Reach cycleAndChainTable c d ∧ Reach cycleAndChainTable d c ∧ d ∈ st.errors ∧
          st.ancestors d = [d]) ∧
      (∀ c, c ∈ parents cycleAndChainTable c → c ∈ st.errors ∧ st.ancestors c = [c]) ∧
      (∀ c, c ∈ st.errors → st.ancestors c = [c]) ∧
      (∀ c, c < cycleAndChainTable.length → c ∉ st.errors →
        (st.ancestors c).Nodup ∧ c ∈ st.ancestors c ∧
        st.ancestors c = dedupKeepFirst (composed cycleAndChainTable st.ancestors c)) ∧
      (∀ x ∈ [2, 3], x ∉ st.errors ∧ st2.ancestors x = st.ancestors x) :=
  ⟨by decide, by decide,
   cyclic_hierarchy_contained cycleAndChainTable chainOnlyTable [2, 3] id (by decide)
     (by decide)⟩

/-- Counterexample to C3 as stated: in the cycle `A < B < A` the class `B` is its own
transitive ancestor, yet no error is reported for it and its list is `[B, A]`; the error
and the list `[A]` go to `A` alone. -/
theorem cyclic_hierarchy_counterexample :
    ancestorsOf twoCycleTable 0 = some [0] ∧
    ancestorsOf twoCycleTable 1 = some [1, 0] ∧
    cycleErrors twoCycleTable = some [0] ∧
    ¬ (∀ (tbl : SymbolTable) (c : SymbolRef),
        Relation.TransGen (fun a b => b ∈ parents tbl a) c c →
        ∃ errs, cycleErrors tbl = some errs ∧ c ∈ errs ∧ ancestorsOf tbl c = some [c]) := by
  refine ⟨by decide, by decide, by decide, ?_⟩
  intro h
  have hcyc : Relation.TransGen (fun a b => b ∈ parents twoCycleTable a) 1 1 :=
    Relation.TransGen.head (b := 0) (by decide) (Relation.TransGen.single (by decide))
  obtain ⟨errs, h1, h2, -⟩ := h twoCycleTable 1 hcyc
  have e : cycleErrors twoCycleTable = some [0] := by decide
  rw [e] at h1
  cases h1
  simp at h2

theorem wired_getElem_lt (tbl : SymbolTable) (x : SymbolRef) (hx : x < tbl.length) :
    (resolveMixesInClassMethods tbl)[x]? = tbl[x]? := by
  unfold resolveMixesInClassMethods
  exact List.getElem?_append_left hx

theorem wired_getElem_singleton (tbl : SymbolTable) (c : SymbolRef) (sym : Symbol)
    (h : tbl[c]? = some sym) :
    (resolveMixesInClassMethods tbl)[singletonOf tbl.length c]? =
      some (singletonSymbol tbl sym) := by
  unfold resolveMixesInClassMethods singletonOf
  rw [List.getElem?_append_right (Nat.le_add_right _ _)]
  simp [h]

theorem wired_length (tbl : SymbolTable) :
    (resolveMixesInClassMethods tbl).length = tbl.length + tbl.length := by
  simp [resolveMixesInClassMethods]

theorem wired_parents_lt (tbl : SymbolTable) (x : SymbolRef) (hx : x < tbl.length) :
    parents (resolveMixesInClassMethods tbl) x = parents tbl x :=
  parents_agree tbl _ x (wired_getElem_lt tbl x hx)

theorem wired_reach (tbl : SymbolTable) (x y : SymbolRef) (h : Reach tbl x y) :
    Reach (resolveMixesInClassMethods tbl) x y := by
  apply Relation.ReflTransGen.mono _ h
  intro a b hab
  rw [wired_parents_lt tbl a (lt_length_of_mem_parents tbl a b hab)]
  exact hab

/-- The invariant of the instance-level pass carries over to the table with the singleton
classes. -/
theorem inv_wired (tbl : SymbolTable) (S : SymbolRef → Prop) (st : LinState)
    (hwf : WellFormed tbl) (h : Inv tbl (fun x => S x ∧ x < tbl.length) st) :
    Inv (resolveMixesInClassMethods tbl) S st := by
  have hlt : ∀ x, st.state x ≠ Unresolved → x < tbl.length := h.inTable
  refine ⟨h.unresolved, h.error, h.reported, h.resolved, ?_, ?_, ?_, ?_, ?_, ?_⟩
  · intro x y hy
    exact wired_reach tbl x y (h.reach x y hy)
  · intro x hx
    rw [wired_length]
    exact Nat.lt_add_right _ (hlt x hx)
  · intro x hSx hx
    exact h.good x ⟨hSx, hlt x (by rw [hx]; decide)⟩ hx
  · intro x hx
    have hxn := hlt x (by rw [hx]; decide)
    obtain ⟨h1, h2⟩ := h.equation x hx
    rw [wired_parents_lt tbl x hxn]
    refine ⟨fun y hy _ => h1 y hy (hwf x (List.mem_range.mpr hxn) y hy), ?_⟩
    rw [h2]
    simp only [composed, wired_getElem_lt tbl x hxn]
  · intro x hx hr
    have hxn := hlt x (by rw [hr]; decide)
    rw [wired_parents_lt tbl x hxn] at hx
    exact h.selfLoop x hx hr
  · obtain ⟨t, ht⟩ := h.ordered
    refine ⟨t, fun x hx y hy hyr => ht x hx y ?_ hyr⟩
    rw [wired_parents_lt tbl x (hlt x (by rw [hx]; decide))] at hy
    exact hy

theorem ranked_instance_part (tbl : SymbolTable) (S : SymbolRef → Prop) (rank : SymbolRef → Nat)
    (hwf : WellFormed tbl) (hS : Ranked (resolveMixesInClassMethods tbl) S rank) :
    Ranked tbl (fun x => S x ∧ x < tbl.length) rank := by
  rintro x ⟨hSx, hxn⟩
  refine ⟨hxn, fun y hy => ?_⟩
  have hy2 : y ∈ parents (resolveMixesInClassMethods tbl) x := by
    rw [wired_parents_lt tbl x hxn]
    exact hy
  obtain ⟨h1, h2⟩ := (hS x hSx).2 y hy2
  exact ⟨⟨h1, hwf x (List.mem_range.mpr hxn) y hy⟩, h2⟩

/-- All passes end; the instance-level lists are those of the first pass, and on the table
with the singleton classes the invariant holds with every symbol terminal. -/
theorem resolveAncestors_spec (tbl : SymbolTable) (S : SymbolRef → Prop)
    (rank : SymbolRef → Nat) (hwf : WellFormed tbl)
    (hS : Ranked (resolveMixesInClassMethods tbl) S rank) :
    ∃ st1 st, computeLinearization tbl = some st1 ∧ resolveAncestors tbl = some st ∧
      Inv tbl (fun x => S x ∧ x < tbl.length) st1 ∧
      (∀ x, x < tbl.length → st.ancestors x = st1.ancestors x) ∧
      Inv (resolveMixesInClassMethods tbl) S st ∧
      ∀ x, x < (resolveMixesInClassMethods tbl).length → Terminal st x := by
  obtain ⟨st1, e1, hinv1, hno1, ht1⟩ := computeLinearization_spec tbl _ rank
    (ranked_instance_part tbl S rank hwf hS)
  have hinv1w := inv_wired tbl S st1 hwf hinv1
  obtain ⟨st, e, hext, hinv, -, ht⟩ := linearizeEach_spec (resolveMixesInClassMethods tbl) S rank
    hS ((resolveMixesInClassMethods tbl).length + 1) (List.range' tbl.length tbl.length) st1
    hinv1w hno1 (Nat.lt_succ_of_le (unresolvedCount_le_length _ _))
  refine ⟨st1, st, e1, ?_, hinv1, ?_, hinv, ?_⟩
  · simp only [resolveAncestors, e1, e]
  · intro x hx
    exact (hext.terminal x (ht1 x hx)).2
  · intro x hx
    by_cases hxn : x < tbl.length
    · exact hext.terminal_of x (ht1 x hxn)
    · apply ht x _ hx
      rw [List.mem_range']
      rw [wired_length] at hx
      exact ⟨x - tbl.length, by omega, by omega⟩

theorem mem_companions (tbl : SymbolTable) (sym msym : Symbol) (m m' : SymbolRef)
    (hinc : m ∈ includes sym) (hm : tbl[m]? = some msym)
    (hmark : msym.mixesInClassMethods = some m') : m' ∈ companions tbl sym := by
  unfold companions
  rw [List.mem_filterMap]
  exact ⟨m, hinc, by simp [hm, hmark]⟩

theorem includes_map_includeOf (l : List SymbolRef) :
    ((l.map includeOf).filter (fun m => m.kind = MixinKind.Include)).map (fun m => m.target) =
      l := by
  induction l with
  | nil => rfl
  | cons a l ih =>
    have ha : (includeOf a).kind = MixinKind.Include := rfl
    simp only [List.map_cons, List.filter_cons, ha, decide_True, if_true, ih]
    rfl

theorem includes_singletonSymbol (tbl : SymbolTable) (sym : Symbol) :
    includes (singletonSymbol tbl sym) = companions tbl sym :=
  includes_map_includeOf _

/-- C5, amended. Let module `M` carry a marker naming the companion `M'` and let class `C`
include `M`, in a table whose references stay in the table and where the singleton class
of `C` lies in an acyclic part of the wired hierarchy. After all passes `M'` is a member
of the ancestor list of the singleton class of `C`; and `M'` is not a member of the
instance-level ancestor list of `C` provided that `M'` is not reached from `C` through
superclass, include and prepend declarations. -/
theorem companion_in_singleton_ancestors (tbl : SymbolTable) (S : List SymbolRef)
    (rank : SymbolRef → Nat) (c m m' : SymbolRef) (sym msym : Symbol)
    (hwf : WellFormed tbl)
    (hS : ClosedAcyclic (resolveMixesInClassMethods tbl) S rank)
    (hc : singletonOf tbl.length c ∈ S)
    (hsym : tbl[c]? = some sym) (hinc : m ∈ includes sym)
    (hm : tbl[m]? = some msym) (hmark : msym.mixesInClassMethods = some m') :
    ∃ st, resolveAncestors tbl = some st ∧
      m' ∈ st.ancestors (singletonOf tbl.length c) ∧
      (¬ Reach tbl c m' → m' ∉ st.ancestors c) := by
  obtain ⟨st1, st, -, e, hinv1, hsame, hinv, ht⟩ :=
    resolveAncestors_spec tbl (fun x => x ∈ S) rank hwf hS
  have hcn := lt_length_of_some tbl c sym hsym
  have hres := resolved_of_ranked _ _ rank hS st hinv ht
  refine ⟨st, e, ?_, ?_⟩
  · have hsing := wired_getElem_singleton tbl c sym hsym
    have hpar : m' ∈ parents (resolveMixesInClassMethods tbl) (singletonOf tbl.length c) := by
      rw [parents_of_some _ _ _ hsing, includes_singletonSymbol]
      apply List.mem_append_right
      apply List.mem_append_left
      exact List.mem_reverse.mpr (mem_companions tbl sym msym m m' hinc hm hmark)
    have hm'S : m' ∈ S := ((hS _ hc).2 m' hpar).1
    have hself : m' ∈ st.ancestors m' := (hinv.resolved m' (hres m' hm'S)).2
    rw [(hinv.equation _ (hres _ hc)).2, mem_dedupKeepFirst]
    exact mem_composed_of_parent _ _ _ m' m' hpar hself
  · intro hnr hmem
    rw [hsame c hcn] at hmem
    exact hnr (hinv1.reach c m' hmem)

/-- Witness of C5: the class `C = 2` includes `M = 1`, marked with `M' = 0`; the singleton
class of `C` is the symbol 5. -/
theorem companion_in_singleton_ancestors_witness :
    WellFormed companionTable ∧
    ClosedAcyclic (resolveMixesInClassMethods companionTable) [0, 5] id ∧
    singletonAncestorsOf companionTable 2 = some [5, 0] ∧
    instanceAncestorsOf companionTable 2 = some [2, 1] ∧
    ∃ st, resolveAncestors companionTable = some st ∧
      0 ∈ st.ancestors (singletonOf companionTable.length 2) ∧
      (¬ Reach companionTable 2 0 → 0 ∉ st.ancestors 2) :=
  ⟨by decide, by decide, by decide, by decide,
   companion_in_singleton_ancestors companionTable [0, 5] id 2 1 0
     { superclass := none, mixins := [includeOf 1], mixesInClassMethods := none }
     { superclass := none, mixins := [], mixesInClassMethods := some 0 }
     (by decide) (by decide) (by decide) rfl (by decide) rfl rfl⟩

/-- Counterexample to C5 as stated: `C` includes `M`, marked with `M'`, and does not
include `M'` itself, but its superclass `B` does; `M'` is then in the instance-level list
of `C`. -/
theorem companion_counterexample :
    instanceAncestorsOf inheritedCompanionTable 3 = some [3, 1, 2, 0] ∧
    singletonAncestorsOf inheritedCompanionTable 3 = some [7, 0, 6] ∧
    ¬ (∀ (tbl : SymbolTable) (c m m' : SymbolRef) (sym msym : Symbol),
        tbl[c]? = some sym → m ∈ includes sym → tbl[m]? = some msym →
        msym.mixesInClassMethods = some m' → m' ∉ includes sym →
        ∃ l ls, instanceAncestorsOf tbl c = some l ∧ singletonAncestorsOf tbl c = some ls ∧
          m' ∈ ls ∧ m' ∉ l) := by
  refine ⟨by decide, by decide, ?_⟩
  intro h
  obtain ⟨l, ls, h1, -, -, h4⟩ := h inheritedCompanionTable 3 1 0
    { superclass := some 2, mixins := [includeOf 1], mixesInClassMethods := none }
    { superclass := none, mixins := [], mixesInClassMethods := some 0 }
    rfl (by decide) rfl rfl (by decide)
  have e : instanceAncestorsOf inheritedCompanionTable 3 = some [3, 1, 2, 0] := by decide
  rw [e] at h1
  cases h1
  simp at h4

/-! ### The constant resolution engine -/

theorem setSlot_self (slots : NodeId → NodeSlot) (i : NodeId) (v : NodeSlot) :
    setSlot slots i v i = v := by
  simp [setSlot]

theorem setSlot_other (slots : NodeId → NodeSlot) (i x : NodeId) (v : NodeSlot) (h : x ≠ i) :
    setSlot slots i v x = slots x := by
  simp [setSlot, h]

theorem attempt_other (nodes : List ConstantReferenceNode) (slots : NodeId → NodeSlot)
    (i x : NodeId) (h : x ≠ i) : attempt nodes slots i x = slots x := by
  unfold attempt
  cases nodes[i]? with
  | none => rfl
  | some node =>
    simp only
    cases resolveSegments (setSlot slots i NodeSlot.InProgress) none node.path <;>
      simp only [setSlot_other _ _ _ _ h]

theorem attempt_self (nodes : List ConstantReferenceNode) (slots : NodeId → NodeSlot)
    (i : NodeId) (hi : i < nodes.length) :
    (∃ s, attempt nodes slots i i = NodeSlot.Resolved s) ∨
      attempt nodes slots i i = NodeSlot.Unresolved := by
  unfold attempt
  rw [List.getElem?_eq_getElem hi]
  simp only
  cases resolveSegments (setSlot slots i NodeSlot.InProgress) none nodes[i].path with
  | none => exact Or.inr (setSlot_self _ _ _)
  | some s => exact Or.inl ⟨s, setSlot_self _ _ _⟩

theorem resolveSegments_some (slots : NodeId → NodeSlot) (path : List SegmentTarget) :
    ∀ cur : Option SymbolRef,
      (∀ seg ∈ path, seg ≠ SegmentTarget.undefined ∧
        ∀ j, seg = SegmentTarget.declaration j → ∃ s, slots j = NodeSlot.Resolved s) →
      (path ≠ [] ∨ cur.isSome = true) →
      ∃ s, resolveSegments slots cur path = some s := by
  induction path with
  | nil =>
    intro cur _ h
    rcases h with h | h
    · exact absurd rfl h
    · exact Option.isSome_iff_exists.mp h
  | cons seg rest ih =>
    intro cur hsegs _
    have hrest : ∀ seg ∈ rest, seg ≠ SegmentTarget.undefined ∧
        ∀ j, seg = SegmentTarget.declaration j → ∃ s, slots j = NodeSlot.Resolved s :=
      fun sg hsg => hsegs sg (List.mem_cons_of_mem _ hsg)
    obtain ⟨h1, h2⟩ := hsegs seg (List.mem_cons_self _ _)
    cases seg with
    | symbol s => exact ih (some s) hrest (Or.inr rfl)
    | declaration n =>
      obtain ⟨s, hs⟩ := h2 n rfl
      simp only [resolveSegments, hs]
      exact ih (some s) hrest (Or.inr rfl)
    | undefined => exact absurd rfl h1

theorem mem_depsOf (nodes : List ConstantReferenceNode) (i j : NodeId) :
    j ∈ depsOf nodes i ↔
      ∃ node, nodes[i]? = some node ∧ SegmentTarget.declaration j ∈ node.path := by
  unfold depsOf
  cases h : nodes[i]? with
  | none => simp
  | some node =>
    simp only [List.mem_filterMap, Option.some.injEq, exists_eq_left']
    constructor
    · rintro ⟨seg, hseg, hj⟩
      cases seg with
      | symbol s => simp at hj
      | declaration n =>
        simp only [Option.some.injEq] at hj
        rw [← hj]
        exact hseg
      | undefined => simp at hj
    · intro hj
      exact ⟨SegmentTarget.declaration j, hj, rfl⟩

theorem depsOf_lt (nodes : List ConstantReferenceNode) (hdef : Defined nodes) (i j : NodeId)
    (h : j ∈ depsOf nodes i) : i < nodes.length ∧ j < nodes.length := by
  obtain ⟨node, hn, hj⟩ := (mem_depsOf nodes i j).mp h
  obtain ⟨hi, hget⟩ := List.getElem?_eq_some.mp hn
  have hmem : node ∈ nodes := by
    rw [← hget]
    exact List.getElem_mem _
  have := (hdef node hmem).2 _ hj
  exact ⟨hi, by simpa [segmentDefined] using this⟩

theorem attempt_resolves (nodes : List ConstantReferenceNode) (hdef : Defined nodes)
    (slots : NodeId → NodeSlot) (i : NodeId) (hi : i < nodes.length)
    (hu : slots i = NodeSlot.Unresolved)
    (hdeps : ∀ j ∈ depsOf nodes i, ∃ s, slots j = NodeSlot.Resolved s) :
    ∃ s, attempt nodes slots i i = NodeSlot.Resolved s := by
  have hn : nodes[i]? = some nodes[i] := List.getElem?_eq_getElem hi
  obtain ⟨hne, hsegs⟩ := hdef nodes[i] (List.getElem_mem _)
  obtain ⟨s, hs⟩ := resolveSegments_some (setSlot slots i NodeSlot.InProgress) nodes[i].path none
    (by
      intro seg hseg
      refine ⟨?_, ?_⟩
      · rintro rfl
        have := hsegs _ hseg
        simp [segmentDefined] at this
      · rintro j rfl
        obtain ⟨s, hs⟩ := hdeps j ((mem_depsOf nodes i j).mpr ⟨_, hn, hseg⟩)
        have hji : j ≠ i := by
          rintro rfl
          rw [hu] at hs
          exact NodeSlot.noConfusion hs
        exact ⟨s, by rw [setSlot_other _ _ _ _ hji]; exact hs⟩)
    (Or.inl hne)
  refine ⟨s, ?_⟩
  unfold attempt
  rw [hn]
  simp only [hs, setSlot_self]

theorem pass_cons_resolved (nodes : List ConstantReferenceNode) (i : NodeId)
    (rest : List NodeId) (slots : NodeId → NodeSlot) (s : SymbolRef)
    (h : attempt nodes slots i i = NodeSlot.Resolved s) :
    pass nodes (i :: rest) slots = pass nodes rest (attempt nodes slots i) := by
  simp only [pass, h]

theorem pass_cons_deferred (nodes : List ConstantReferenceNode) (i : NodeId)
    (rest : List NodeId) (slots : NodeId → NodeSlot)
    (h : attempt nodes slots i i = NodeSlot.Unresolved) :
    pass nodes (i :: rest) slots =
      ((pass nodes rest (attempt nodes slots i)).1,
        i :: (pass nodes rest (attempt nodes slots i)).2) := by
  simp only [pass, h]

/-- What one full pass does to a worklist of distinct unresolved nodes. -/
theorem pass_spec (nodes : List ConstantReferenceNode) (hdef : Defined nodes) :
    ∀ (l : List NodeId) (slots : NodeId → NodeSlot), l.Nodup →
      (∀ i ∈ l, i < nodes.length ∧ slots i = NodeSlot.Unresolved) →
      (pass nodes l slots).2.Sublist l ∧
      (∀ x, x ∉ l → (pass nodes l slots).1 x = slots x) ∧
      (∀ i ∈ (pass nodes l slots).2, (pass nodes l slots).1 i = NodeSlot.Unresolved) ∧
      (∀ i ∈ l, i ∉ (pass nodes l slots).2 →
        ∃ s, (pass nodes l slots).1 i = NodeSlot.Resolved s) ∧
      (∀ i ∈ l, (∀ j ∈ depsOf nodes i, ∃ s, slots j = NodeSlot.Resolved s) →
        i ∉ (pass nodes l slots).2) := by
  intro l
  induction l with
  | nil =>
    intro slots _ _
    simp [pass]
  | cons i rest ih =>
    intro slots hnd hl
    obtain ⟨hirest, hndrest⟩ := List.nodup_cons.mp hnd
    obtain ⟨hin, hiu⟩ := hl i (List.mem_cons_self _ _)
    have hl1 : ∀ j ∈ rest, j < nodes.length ∧ attempt nodes slots i j = NodeSlot.Unresolved := by
      intro j hj
      obtain ⟨h1, h2⟩ := hl j (List.mem_cons_of_mem _ hj)
      have hji : j ≠ i := by
        rintro rfl
        exact hirest hj
      exact ⟨h1, by rw [attempt_other _ _ _ _ hji]; exact h2⟩
    obtain ⟨p1, p2, p3, p4, p5⟩ := ih (attempt nodes slots i) hndrest hl1
    have hdeps1 : ∀ k, (∀ j ∈ depsOf nodes k, ∃ s, slots j = NodeSlot.Resolved s) →
        ∀ j ∈ depsOf nodes k, ∃ s, attempt nodes slots i j = NodeSlot.Resolved s := by
      intro k hk j hj
      obtain ⟨s, hs⟩ := hk j hj
      have hji : j ≠ i := by
        rintro rfl
        rw [hiu] at hs
        exact NodeSlot.noConfusion hs
      exact ⟨s, by rw [attempt_other _ _ _ _ hji]; exact hs⟩
    have hinot : i ∉ (pass nodes rest (attempt nodes slots i)).2 := fun h => hirest (p1.subset h)
    rcases attempt_self nodes slots i hin with ⟨s, hs⟩ | hs
    · rw [pass_cons_resolved nodes i rest slots s hs]
      refine ⟨p1.trans (List.sublist_cons_self _ _), ?_, p3, ?_, ?_⟩
      · intro x hx
        have hxi : x ≠ i := fun h => hx (h ▸ List.mem_cons_self _ _)
        rw [p2 x (fun h => hx (List.mem_cons_of_mem _ h)), attempt_other _ _ _ _ hxi]
      · intro k hk hkd
        rcases List.mem_cons.mp hk with rfl | hk
        · exact ⟨s, by rw [p2 k hirest]; exact hs⟩
        · exact p4 k hk hkd
      · intro k hk hdeps
        rcases List.mem_cons.mp hk with rfl | hk
        · exact hinot
        · exact p5 k hk (hdeps1 k hdeps)
    · rw [pass_cons_deferred nodes i rest slots hs]
      refine ⟨p1.cons₂ i, ?_, ?_, ?_, ?_⟩
      · intro x hx
        have hxi : x ≠ i := fun h => hx (h ▸ List.mem_cons_self _ _)
        show (pass nodes rest (attempt nodes slots i)).1 x = slots x
        rw [p2 x (fun h => hx (List.mem_cons_of_mem _ h)), attempt_other _ _ _ _ hxi]
      · intro k hk
        show (pass nodes rest (attempt nodes slots i)).1 k = NodeSlot.Unresolved
        rcases List.mem_cons.mp hk with rfl | hk
        · rw [p2 k hirest]
          exact hs
        · exact p3 k hk
      · intro k hk hkd
        show ∃ s, (pass nodes rest (attempt nodes slots i)).1 k = NodeSlot.Resolved s
        have hki : k ≠ i := fun h => hkd (h ▸ List.mem_cons_self _ _)
        rcases List.mem_cons.mp hk with h | hk
        · exact absurd h hki
        · exact p4 k hk (fun h => hkd (List.mem_cons_of_mem _ h))
      · intro k hk hdeps
        show k ∉ i :: (pass nodes rest (attempt nodes slots i)).2
        rcases List.mem_cons.mp hk with rfl | hkrest
        · obtain ⟨s, hs2⟩ := attempt_resolves nodes hdef slots k hin hiu hdeps
          rw [hs] at hs2
          exact NodeSlot.noConfusion hs2
        · intro hmem
          rcases List.mem_cons.mp hmem with hki | hmem
          · exact hirest (hki ▸ hkrest)
          · exact p5 k hkrest (hdeps1 k hdeps) hmem

theorem exists_min_height (h : NodeId → Nat) (w : List NodeId) (hne : w ≠ []) :
    ∃ i ∈ w, ∀ j ∈ w, h i ≤ h j := by
  induction w with
  | nil => exact absurd rfl hne
  | cons a rest ih =>
    by_cases hr : rest = []
    · subst hr
      exact ⟨a, List.mem_cons_self _ _, fun j hj => by
        rw [List.mem_singleton.mp hj]⟩
    · obtain ⟨i, hi, hmin⟩ := ih hr
      by_cases hai : h a ≤ h i
      · refine ⟨a, List.mem_cons_self _ _, fun j hj => ?_⟩
        rcases List.mem_cons.mp hj with rfl | hj
        · exact le_refl _
        · exact le_trans hai (hmin j hj)
      · refine ⟨i, List.mem_cons_of_mem _ hi, fun j hj => ?_⟩
        rcases List.mem_cons.mp hj with rfl | hj
        · omega
        · exact hmin j hj

/-- The fixpoint on an acyclic set of declarations, measured by a height function. -/
theorem resolveLoop_spec (nodes : List ConstantReferenceNode) (hdef : Defined nodes)
    (h : NodeId → Nat) (L : Nat) (hL : ∀ i, i < nodes.length → h i ≤ L)
    (hdec : ∀ i j, j ∈ depsOf nodes i → h j < h i) :
    ∀ (fuel : Nat) (w : List NodeId) (st : EngineState), w.length < fuel → w.Nodup →
      (∀ i ∈ w, i < nodes.length ∧ st.slots i = NodeSlot.Unresolved) →
      (∀ i, i < nodes.length → i ∉ w → ∃ s, st.slots i = NodeSlot.Resolved s) →
      (∀ i, i < nodes.length → h i ≤ st.passes → i ∉ w) →
      st.passes ≤ L → st.errors = [] →
      ∃ st1, resolveLoop nodes fuel w st = some st1 ∧
        (∀ i, i < nodes.length → ∃ s, st1.slots i = NodeSlot.Resolved s) ∧
        st1.errors = [] ∧ st1.passes ≤ L := by
  intro fuel
  induction fuel with
  | zero => intro w st hf; exact absurd hf (Nat.not_lt_zero _)
  | succ fuel ih =>
    intro w st hf hnd hw hres hheight hpass herr
    by_cases hempty : w = []
    · subst hempty
      refine ⟨st, by simp [resolveLoop], ?_, herr, hpass⟩
      intro i hi
      exact hres i hi (List.not_mem_nil _)
    · obtain ⟨p1, p2, p3, p4, p5⟩ := pass_spec nodes hdef w st.slots hnd hw
      -- a node of least height is resolved by the pass
      obtain ⟨m, hm, hmin⟩ := exists_min_height h w hempty
      have hmdeps : ∀ j ∈ depsOf nodes m, ∃ s, st.slots j = NodeSlot.Resolved s := by
        intro j hj
        have hjn := (depsOf_lt nodes hdef m j hj).2
        apply hres j hjn
        intro hjw
        have := hmin j hjw
        have := hdec m j hj
        omega
      have hmnot := p5 m hm hmdeps
      have hlt : (pass nodes w st.slots).2.length < w.length := by
        rcases Nat.lt_or_ge (pass nodes w st.slots).2.length w.length with hl | hl
        · exact hl
        · have := p1.eq_of_length_le hl
          rw [this] at hmnot
          exact absurd hm hmnot
      have hmh : st.passes < h m := by
        by_contra hc
        exact hheight m (hw m hm).1 (Nat.le_of_not_lt hc) hm
      have hpass1 : st.passes + 1 ≤ L := by
        have := hL m (hw m hm).1
        omega
      have hstep : resolveLoop nodes (fuel + 1) w st =
          resolveLoop nodes fuel (pass nodes w st.slots).2
            { st with slots := (pass nodes w st.slots).1, passes := st.passes + 1 } := by
        have he : w.isEmpty = false := by
          cases w with
          | nil => exact absurd rfl hempty
          | cons a l => rfl
        simp only [resolveLoop, he, hlt, if_true, Bool.false_eq_true, if_false]
      rw [hstep]
      apply ih
      · omega
      · exact p1.nodup hnd
      · intro i hi
        exact ⟨(hw i (p1.subset hi)).1, p3 i hi⟩
      · intro i hin hid
        by_cases hiw : i ∈ w
        · exact p4 i hiw hid
        · obtain ⟨s, hs⟩ := hres i hin hiw
          exact ⟨s, by show (pass nodes w st.slots).1 i = _; rw [p2 i hiw]; exact hs⟩
      · intro i hin hih
        show i ∉ (pass nodes w st.slots).2
        by_cases hiw : i ∈ w
        · apply p5 i hiw
          intro j hj
          have hjn := (depsOf_lt nodes hdef i j hj).2
          apply hres j hjn
          apply hheight j hjn
          have := hdec i j hj
          simp only at hih
          omega
        · exact fun hd => hiw (p1.subset hd)
      · exact hpass1
      · exact herr

/-- A bound on the length of every dependency chain gives a height function. -/
theorem height_of_chain_bound (nodes : List ConstantReferenceNode) (hdef : Defined nodes)
    (L : Nat)
    (hchain : ∀ chain : List NodeId, (∀ i ∈ chain, i < nodes.length) →
      List.Chain' (DependsOn nodes) chain → chain.length ≤ L) :
    ∃ h : NodeId → Nat, (∀ i, i < nodes.length → 1 ≤ h i ∧ h i ≤ L) ∧
      ∀ i j, j ∈ depsOf nodes i → h j < h i := by
  classical
  let P : NodeId → Nat → Prop := fun i k =>
    ∃ chain : List NodeId, chain.head? = some i ∧ (∀ x ∈ chain, x < nodes.length) ∧
      List.Chain' (DependsOn nodes) chain ∧ chain.length = k
  have hP1 : ∀ i, i < nodes.length → P i 1 := fun i hi =>
    ⟨[i], rfl, fun x hx => by rw [List.mem_singleton.mp hx]; exact hi, List.chain'_singleton i, rfl⟩
  have hL1 : ∀ i, i < nodes.length → 1 ≤ L := fun i hi =>
    hchain [i] (fun x hx => by rw [List.mem_singleton.mp hx]; exact hi) (List.chain'_singleton i)
  refine ⟨fun i => Nat.findGreatest (P i) L, ?_, ?_⟩
  · intro i hi
    exact ⟨Nat.le_findGreatest (hL1 i hi) (hP1 i hi), Nat.findGreatest_le L⟩
  · intro i j hij
    obtain ⟨hi, hj⟩ := depsOf_lt nodes hdef i j hij
    obtain ⟨chain, hhead, hin, hch, hlen⟩ :=
      Nat.findGreatest_spec (P := P j) (hL1 j hj) (hP1 j hj)
    have hch2 : List.Chain' (DependsOn nodes) (i :: chain) := by
      rw [List.chain'_cons']
      refine ⟨?_, hch⟩
      intro y hy
      rw [hhead] at hy
      cases hy
      exact hij
    have hin2 : ∀ x ∈ i :: chain, x < nodes.length := by
      intro x hx
      rcases List.mem_cons.mp hx with rfl | hx
      · exact hi
      · exact hin x hx
    have hle := hchain (i :: chain) hin2 hch2
    have hPi : P i (Nat.findGreatest (P j) L + 1) :=
      ⟨i :: chain, rfl, hin2, hch2, by rw [List.length_cons, hlen]⟩
    have hle2 : Nat.findGreatest (P j) L + 1 ≤ L := by
      rw [List.length_cons, hlen] at hle
      exact hle
    have hfin : Nat.findGreatest (P j) L + 1 ≤ Nat.findGreatest (P i) L :=
      Nat.le_findGreatest hle2 hPi
    exact hfin

/-- A height function bounds the length of every dependency chain. -/
theorem chain_bound_of_height (nodes : List ConstantReferenceNode) (h : NodeId → Nat)
    (hdec : ∀ i ∈ List.range nodes.length, ∀ j ∈ depsOf nodes i, h j < h i) :
    ∀ chain : List NodeId, (∀ i ∈ chain, i < nodes.length) →
      List.Chain' (DependsOn nodes) chain → ∀ i, chain.head? = some i →
      chain.length ≤ h i + 1 := by
  intro chain
  induction chain with
  | nil => intro _ _ i hi; exact absurd hi (by simp)
  | cons a rest ih =>
    intro hin hch i hi
    simp only [List.head?_cons, Option.some.injEq] at hi
    subst hi
    cases rest with
    | nil => simp
    | cons b rest2 =>
      have hab : DependsOn nodes a b := (List.chain'_cons.mp hch).1
      have := ih (fun x hx => hin x (List.mem_cons_of_mem _ hx)) (List.chain'_cons.mp hch).2 b rfl
      have hlt := hdec a (List.mem_range.mpr (hin a (List.mem_cons_self _ _))) b hab
      simp only [List.length_cons] at this ⊢
      omega

/-- C4. For a finite set of constant declarations in which every path is defined and
every chain of dependencies has at most `L` nodes (so that the set is acyclic), and for
every order of the nodes in the worklist, the engine ends with every node bound to a
symbol, none marked as an error, none left unresolved or mid-attempt, after at most `L`
full passes. -/
theorem fixpoint_within_longest_chain (nodes : List ConstantReferenceNode)
    (worklist : List NodeId) (L : Nat)
    (hperm : worklist.Perm (List.range nodes.length))
    (hdef : Defined nodes)
    (hchain : ∀ chain : List NodeId, (∀ i ∈ chain, i < nodes.length) →
      List.Chain' (DependsOn nodes) chain → chain.length ≤ L) :
    ∃ st, runConstantResolution nodes worklist = some st ∧
      (∀ i, i < nodes.length → ∃ s, st.slots i = NodeSlot.Resolved s) ∧
      st.errors = [] ∧ st.passes ≤ L := by
  obtain ⟨h, hh, hdec⟩ := height_of_chain_bound nodes hdef L hchain
  have hmem : ∀ i, i ∈ worklist ↔ i < nodes.length := fun i => by
    rw [hperm.mem_iff, List.mem_range]
  apply resolveLoop_spec nodes hdef h L (fun i hi => (hh i hi).2) hdec
  · exact Nat.lt_succ_self _
  · exact hperm.nodup_iff.mpr (List.nodup_range _)
  · intro i hi
    exact ⟨(hmem i).mp hi, rfl⟩
  · intro i hi hni
    exact absurd ((hmem i).mpr hi) hni
  · intro i hi hle
    have := (hh i hi).1
    simp only [EngineState.init] at hle
    omega
  · exact Nat.zero_le _
  · rfl

/-- Witness of C4: the chain `A = B`, `B = C`, `C = K` with the worklist in the order that
needs the most passes; the run takes three passes, the length of the chain. -/
theorem fixpoint_within_longest_chain_witness :
    [0, 1, 2].Perm (List.range chainNodes.length) ∧ Defined chainNodes ∧
    runSummary chainNodes [0, 1, 2] =
      some (3, [NodeSlot.Resolved 7, NodeSlot.Resolved 7, NodeSlot.Resolved 7], []) ∧
    ∃ st, runConstantResolution chainNodes [0, 1, 2] = some st ∧
      (∀ i, i < chainNodes.length → ∃ s, st.slots i = NodeSlot.Resolved s) ∧
      st.errors = [] ∧ st.passes ≤ 3 :=
  ⟨by decide, by decide, by decide,
   fixpoint_within_longest_chain chainNodes [0, 1, 2] 3 (by decide) (by decide)
     (fun chain hin hch => by
       cases chain with
       | nil => exact Nat.zero_le _
       | cons a rest =>
         have h1 : (a :: rest).length ≤ (2 - a) + 1 :=
           chain_bound_of_height chainNodes (fun i => 2 - i) (by decide)
             (a :: rest) hin hch a rfl
         have h3 : (2 - a) + 1 ≤ 3 := Nat.succ_le_succ (Nat.sub_le 2 a)
         exact le_trans h1 h3)⟩

/-- The engine ends on every input, cyclic or not. -/
theorem resolveLoop_total (nodes : List ConstantReferenceNode) :
    ∀ (fuel : Nat) (w : List NodeId) (st : EngineState), w.length < fuel →
      ∃ st1, resolveLoop nodes fuel w st = some st1 := by
  intro fuel
  induction fuel with
  | zero => intro w st hf; exact absurd hf (Nat.not_lt_zero _)
  | succ fuel ih =>
    intro w st hf
    simp only [resolveLoop]
    split
    · exact ⟨_, rfl⟩
    · split
      · next hlt => exact ih _ _ (by omega)
      · exact ⟨_, rfl⟩

end resolver

end sorbet
